import Mathlib

/-!
Verification of the mpytools distributed I/O layer (`mpytools/io.py`).

The development embeds the orchestration code of `FileStack` / `BaseFile`
shallowly: machine integers become `Int`/`Nat`, numpy arrays become
`List Int`, fallible code returns `Option`/`Except`, and the MPI worker
group is modelled globally (one structure holds every worker's state, and
collectives are direct computations over it).

The partition value type `Slice` and the cross-worker gather
`MPIScatteredSource` live in `mpytools/array.py`, which is not part of the
sources under verification; they are modelled from the specification
(sections 4.1 and 4.2) and marked as such.
-/

namespace MpyIO

/-- Arithmetic progression `start, start+step, ...` of the given length. -/
def rlist (start step : Int) : Nat → List Int
  | 0 => []
  | n + 1 => start :: rlist (start + step) step n

/-- Modelled from the spec: number of positions of a strided range
`start, start+step, ... (< stop / > stop)`, i.e. `max 0 ⌈(stop-start)/step⌉`
(python slice-length arithmetic, with literal bounds and no negative-index
wrapping, section 4.1 `make`). -/
def slen (start stop step : Int) : Nat :=
  if 0 < step then ((stop - start + step - 1) / step).toNat
  else ((start - stop + (-step) - 1) / (-step)).toNat

/-- Modelled from the spec: a Partition (section 3): tagged union of a
strided range and an explicit ordered index list.  The semantics is carried
by the ordered position list `pos`; `isArr` records the representation tag
(`Indices` when true), `sstep` the nominal step of a range representation. -/
structure Slice where
  isArr : Bool
  sstep : Int
  pos : List Int
deriving Repr, DecidableEq

/-- Modelled from the spec: `make(start, stop, step)` with deferred size:
the positions of the strided range, no clamping. -/
def Slice.mkRange (start stop step : Int) : Slice :=
  ⟨false, step, rlist start step (slen start stop step)⟩

/-- Modelled from the spec: `make(start, stop, step, size)`: positions of
the strided range clamped into `[0, size)`. -/
def Slice.make (start stop step : Int) (size : Nat) : Slice :=
  ⟨false, step, (rlist start step (slen start stop step)).filter
    (fun p => 0 ≤ p && p < (size : Int))⟩

/-- An `Indices` partition holding an explicit position array. -/
def Slice.ofArray (l : List Int) : Slice := ⟨true, 1, l⟩

def Slice.size (s : Slice) : Nat := s.pos.length

/-- Modelled from the spec: `shift(delta)` translates all positions. -/
def Slice.shift (s : Slice) (d : Int) : Slice := ⟨s.isArr, s.sstep, s.pos.map (· + d)⟩

/-- First position (numpy `.start` of the index range). -/
def Slice.start (s : Slice) : Int := s.pos.headD 0

/-- Modelled from the spec: `splitEvenly(n)` divides into `n` parts at the
`⌊i·size/n⌋` boundaries, preserving relative order. -/
def Slice.split (s : Slice) (n : Nat) : List Slice :=
  (List.range n).map (fun i =>
    ⟨s.isArr, s.sstep, (s.pos.drop (i * s.size / n)).take ((i + 1) * s.size / n - i * s.size / n)⟩)

/-- Modelled from the spec: `restrictTo` / `Slice.slice`: compose `s` with a
sub-selection `x` expressed in `s`'s own coordinate space (positions of `s`
at the offsets listed by `x`, offsets outside `[0, s.size)` dropped). -/
def Slice.sliceComp (s x : Slice) : Slice :=
  ⟨s.isArr || x.isArr, x.sstep,
    x.pos.filterMap (fun k => if k < 0 then none else s.pos.get? k.toNat)⟩

/-- Offset of the first occurrence of `p` in a position list. -/
def posIn (p : Int) : List Int → Nat
  | [] => 0
  | q :: rest => if q = p then 0 else posIn p rest + 1

/-- Modelled from the spec: `find(other, withCorrespondence=true)`:
the sub-partition of `s` overlapping `other` (matched by value, expressed as
offsets within `s`'s own enumeration, i.e. local rows), together with, for
each retained position, its offset within `other`'s enumeration. -/
def Slice.find (s other : Slice) : Slice × Slice :=
  let pairs := (other.pos.enum.filter (fun ip => s.pos.contains ip.2)).map
    (fun ip => (((posIn ip.2 s.pos : Nat) : Int), ((ip.1 : Nat) : Int)))
  (⟨other.isArr, 1, pairs.map Prod.fst⟩, ⟨other.isArr, 1, pairs.map Prod.snd⟩)

/-- Positions clamped into `[0, size)` (`Slice(rows, size=csize)`). -/
def Slice.clamp (s : Slice) (size : Nat) : Slice :=
  ⟨s.isArr, s.sstep, s.pos.filter (fun p => 0 ≤ p && p < (size : Int))⟩

/-- Maximal arithmetic runs of a position list (right-greedy grouping). -/
def runs : List Int → List (List Int)
  | [] => []
  | [a] => [[a]]
  | a :: b :: rest =>
    match runs (b :: rest) with
    | [] => [[a]]
    | r :: rs =>
      match r with
      | [] => [a] :: rs
      | [x] => (a :: [x]) :: rs
      | x :: y :: t => if y - x = x - a then (a :: x :: y :: t) :: rs else [a] :: (x :: y :: t) :: rs

/-- Common difference of a run (1 for runs of length at most one). -/
def stepOf : List Int → Int
  | x :: y :: _ => y - x
  | _ => 1

/-- Modelled from the spec: `coalesce` / `Slice.snap`: merge an ordered
sequence of pieces into a minimal ordered sequence of range partitions. -/
def Slice.snap (pieces : List Slice) : List Slice :=
  (runs ((pieces.map Slice.pos).flatten)).map (fun run => ⟨false, stepOf run, run⟩)

/-- Modelled from the spec: `toIndices` (`Slice.to_array`). -/
def Slice.toArr (s : Slice) : Slice := ⟨true, s.sstep, s.pos⟩

/-- Modelled from the spec: `Slice.to_slices`: decompose an index array into
a sequence of range partitions. -/
def Slice.toSlices (s : Slice) : List Slice :=
  (runs s.pos).map (fun run => ⟨false, stepOf run, run⟩)

/-- One shard: header-resolved size, per-column on-disk data, header
record, owning communicator, and the declared row-range representations
(`_type_read_rows`). -/
structure File where
  csize : Nat
  data : List (String × List Int)
  header : List (String × Int)
  comm : Nat
  typeRR : List String
deriving Repr, DecidableEq

def File.columns (f : File) : List String := f.data.map Prod.fst

def File.colData (f : File) (c : String) : Option (List Int) := f.data.lookup c

/-- The per-format reader contract `_read_rows`: values of the column at the
given (file-local) row positions, failing on a missing column or an
out-of-range row. -/
def File.readRows (f : File) (c : String) (p : Slice) : Option (List Int) :=
  (f.colData c).bind (fun d => p.pos.mapM (fun i => if i < 0 then none else d.get? i.toNat))

/-- The row-range pieces `BaseFile.read` (io.py:361-370) hands to the
format-specific reader: the selection clamped to `[0, csize)`, an index
array decomposed into slices when the type does not declare `index`
support, a slice converted to an index array when the type does not declare
`slice` support. -/
def File.readPieces (f : File) (rows : Slice) : List Slice :=
  let sl := rows.clamp f.csize
  if sl.isArr then (if "index" ∈ f.typeRR then [sl] else sl.toSlices)
  else (if "slice" ∈ f.typeRR then [sl] else [sl.toArr])

/-- `BaseFile.read` (io.py:361-372): read each converted piece through the
format-specific reader and concatenate; `np.concatenate` of an empty piece
list raises. -/
def File.read (f : File) (c : String) (rows : Slice) : Option (List Int) :=
  ((f.readPieces rows).mapM (f.readRows c)).bind
    (fun tmp => if tmp.isEmpty then none else some tmp.flatten)

/-- The worker group's view of one logical table: the shared ordered shard
list, the number of workers `P`, each worker's current partitions
(`none` = default equal split, as `_slices` unset), and the stack's
communicator. -/
structure FileStack where
  files : List File
  P : Nat
  slicesPer : Option (List (List Slice))
  comm : Nat
deriving Repr, DecidableEq

def FileStack.filesizes (fs : FileStack) : List Nat := fs.files.map File.csize

def FileStack.cfilesize (fs : FileStack) : Nat := fs.filesizes.sum

/-- `FileStack.slices` (io.py:123-127): worker `r`'s current partitions;
when unset, the default contiguous split
`[r·cfilesize/P, (r+1)·cfilesize/P)`. -/
def FileStack.slices (fs : FileStack) (r : Nat) : List Slice :=
  match fs.slicesPer with
  | some s => s.getD r []
  | none => [Slice.mkRange ((r * fs.cfilesize / fs.P : Nat) : Int)
      (((r + 1) * fs.cfilesize / fs.P : Nat) : Int) 1]

/-- Worker `r`'s local size (`FileStack.size`). -/
def FileStack.lsize (fs : FileStack) (r : Nat) : Nat :=
  ((fs.slices r).map Slice.size).sum

/-- `FileStack.csize`: allreduce of the local sizes. -/
def FileStack.csize (fs : FileStack) : Nat :=
  ((List.range fs.P).map (fs.lsize)).sum

/-- `np.cumsum([0] + l)`. -/
def cumsum (l : List Nat) : List Nat := l.scanl (· + ·) 0

/-- The shards' global offset windows `[c_i, c_{i+1})` from the cumulative
sum of shard sizes (io.py:145-150). -/
def FileStack.windows (fs : FileStack) : List Slice :=
  let c := cumsum fs.filesizes
  (c.zip c.tail).map (fun ab => Slice.mkRange ((ab.1 : Nat) : Int) ((ab.2 : Nat) : Int) 1)

/-- Consecutive offset windows of the given sizes starting at `c`
(a recursion-friendly reading of `FileStack.windows`). -/
def winsFrom (c : Int) : List Nat → List Slice
  | [] => []
  | s :: rest => Slice.mkRange c (c + (s : Nat)) 1 :: winsFrom (c + (s : Nat)) rest

/-- The logical column: the shards' data for column `c`, concatenated in
shard order. -/
def gcol (files : List File) (c : String) : List Int :=
  (files.map (fun f => (f.colData c).getD [])).flatten

/-- Well-formedness of a shard list against a global getter `g`: every
shard holds column `c` with its header-declared length, and its value at
local row `k` is `g` at the shard's global offset plus `k`. -/
def FilesVal : List File → String → Int → (Int → Int) → Prop
  | [], _, _, _ => True
  | f :: rest, c, o, g =>
    (∃ d, f.colData c = some d ∧ d.length = f.csize ∧
      ∀ k : Nat, k < f.csize → d.getD k 0 = g (o + (k : Nat))) ∧
    FilesVal rest c (o + (f.csize : Nat)) g

/-- Sort a keyed list by key (np.argsort then take; keys distinct in every
use, so stable insertion sort is a faithful translation). -/
def sortKey {α : Type} (l : List (Int × α)) : List (Int × α) :=
  List.insertionSort (fun a b => a.1 ≤ b.1) l

/-- The body of `FileStack.read`'s inner loop (io.py:225-234) once the
overlapping shards `acts` (each a non-empty `(local rows, correspondence)`
pair with its file) are known: read them, then reorder the results into the
partition's enumeration order — by sorting all values on their
correspondence offsets when the partition is index-represented (`isArr`),
else by sorting the per-shard blocks on their first correspondence offset.
Returns the blocks appended to `toret` (`none` = exception). -/
def readActs (acts : List ((Slice × Slice) × File)) (c : String) (isArr : Bool) :
    Option (List (List Int)) :=
  (acts.mapM (fun (x : (Slice × Slice) × File) => x.2.read c x.1.1)).bind (fun tmp =>
    if tmp.isEmpty then some []
    else if isArr then
      some [(sortKey (((acts.map (fun (x : (Slice × Slice) × File) => x.1.2.pos)).flatten).zip
        tmp.flatten)).map Prod.snd]
    else
      some ((sortKey ((acts.map (fun (x : (Slice × Slice) × File) => x.1.2.start)).zip
        tmp)).map Prod.snd))

/-- One iteration of `FileStack.read`'s outer loop (io.py:224-234) for one
worker partition `sl`: find each shard's overlap and process the
overlapping shards. -/
def readSlice (files : List File) (wins : List Slice) (c : String) (sl : Slice) :
    Option (List (List Int)) :=
  readActs (((wins.map (fun w => w.find sl)).zip files).filter
    (fun (x : (Slice × Slice) × File) => !x.1.1.pos.isEmpty)) c sl.isArr

/-- `FileStack.read` (io.py:221-236) on worker `r`: process every current
partition, collect the blocks, and concatenate — `np.concatenate` with
`toret[0].dtype` raises when no block was collected. -/
def FileStack.read (fs : FileStack) (r : Nat) (c : String) : Option (List Int) :=
  ((fs.slices r).mapM (readSlice fs.files fs.windows c)).bind (fun parts =>
    let toret := parts.flatten
    if toret.isEmpty then none else some toret.flatten)

/-- Whether any worker's partition is index-represented
(`FileStack._is_slice_array`). -/
def FileStack.isSliceArr (fs : FileStack) : Bool :=
  (List.range fs.P).any (fun q => (fs.slices q).any Slice.isArr)

/-- The logical concatenation, in worker-rank order, of every worker's
current position arrays (the data the `MPIScatteredSource` of io.py:174-178
exposes). -/
def FileStack.allPos (fs : FileStack) : List Int :=
  ((List.range fs.P).map (fun q => ((fs.slices q).map Slice.pos).flatten)).flatten

/-- The range-path loop of `FileStack.cslice` (io.py:180-187): walk every
worker's partitions in rank order, restrict the local request (shifted into
each partition's own coordinates) against each, and keep the non-empty
pieces. -/
def rpGo (ls : Slice) : List Slice → Int → List Slice
  | [], _ => []
  | sli :: rest, cum =>
    let piece := sli.sliceComp (ls.shift (-cum))
    let tail := rpGo ls rest (cum + (sli.size : Int))
    if piece.pos.isEmpty then tail else piece :: tail

/-- `FileStack.cslice` (io.py:170-192): reslice the logical table by a
global range.  Each worker takes its chunk of the request
(`split(P)[rank]`); the array path realizes it with one scattered gather
(spec section 4.2 contract), the range path intersects it against every
worker's range and coalesces the pieces (reversed when the step is
negative). -/
def FileStack.cslice (fs : FileStack) (start stop step : Int) : FileStack :=
  let gs := Slice.make start stop step fs.csize
  let newSl : Nat → List Slice := fun r =>
    let ls := (gs.split fs.P).getD r (Slice.ofArray [])
    if ls.isArr || fs.isSliceArr then
      [Slice.ofArray (ls.pos.filterMap (fun k => if k < 0 then none else fs.allPos.get? k.toNat))]
    else
      let allS := ((List.range fs.P).map (fs.slices)).flatten
      let tmp := rpGo ls allS 0
      Slice.snap (if ls.sstep < 0 then tmp.reverse else tmp)
  { fs with slicesPer := some ((List.range fs.P).map newSl) }

/-- The collective result of `read`: every worker's local read, in rank
order, concatenated; `none` as soon as any worker raises. -/
def FileStack.creadAll (fs : FileStack) (c : String) : Option (List Int) :=
  ((List.range fs.P).mapM (fun r => fs.read r c)).map List.flatten

/-- `FileStack.columns` (io.py:129-135): the first shard's columns filtered
to those present in every other shard. -/
def FileStack.columns (fs : FileStack) : List String :=
  match fs.files with
  | [] => []
  | f :: rest => f.columns.filter (fun c => rest.all (fun g => c ∈ g.columns))

/-- Python `dict.update`: existing keys keep their position and take the new
value, new keys are appended in order. -/
def dictUpdate (d e : List (String × Int)) : List (String × Int) :=
  d.map (fun kv => (kv.1, ((e.lookup kv.1).getD kv.2))) ++
    e.filter (fun kv => (d.lookup kv.1).isNone)

/-- `FileStack.header` (io.py:137-143): start from `{}` and `update` with
each shard's header in shard order. -/
def FileStack.header (fs : FileStack) : List (String × Int) :=
  fs.files.foldl (fun acc f => dictUpdate acc f.header) []

/-- `FileStack.__init__` (io.py:92-103): collect the input files, then raise
if any is associated with a communicator other than the stack's. -/
def initStack (files : List File) (P : Nat) (comm : Nat) : Except String FileStack :=
  if files.all (fun f => f.comm == comm) then
    Except.ok ⟨files, P, none, comm⟩
  else Except.error "Input files with different mpicomm"

/-- The per-shard row counts `FileStack.write` assigns (io.py:254-257):
an equal split of the collective size over the shards, independent of the
worker partitions. -/
def FileStack.writeSizes (fs : FileStack) (localSizes : List Nat) : List Nat :=
  let csz := localSizes.sum
  let nfiles := fs.files.length
  (List.range nfiles).map (fun i => (i + 1) * csz / nfiles - i * csz / nfiles)

/-- The file-type registry in registration order (io.py:285-292 collects
every `BaseFile` subclass by class-definition order, keyed by `name` with
its `extensions`). -/
def registry : List (String × List String) :=
  [("base", []),
   ("fits", ["fits"]),
   ("hdf5", ["hdf", "h4", "hdf4", "he2", "h5", "hdf5", "he5", "h5py"]),
   ("bin", ["npy"]),
   ("bigfile", ["bigfile"]),
   ("asdf", ["asdf"])]

/-- `os.path.splitext(filename)[1][1:]`: the extension after the last dot of
the basename, where the basename's leading dots never start an extension. -/
def splitextExt (s : String) : String :=
  let base := ((s.toList.reverse.takeWhile (fun ch => ch ≠ '/')).reverse)
  let lead := (base.takeWhile (fun ch => ch = '.')).length
  let core := base.drop lead
  if core.contains '.' then
    String.mk ((core.reverse.takeWhile (fun ch => ch ≠ '.')).reverse)
  else ""

/-- `get_filetype` (io.py:270-282): with no explicit format tag, resolve the
filename's extension against the registry; an unresolved extension is a
fatal lookup error. -/
def get_filetype (filetype : Option String) (filename : Option String) :
    Except String String :=
  match filetype with
  | some ft => Except.ok ft
  | none =>
    match filename with
    | none => Except.error "no filetype"
    | some fn =>
      let ext := splitextExt fn
      match registry.find? (fun e => ext ∈ e.2) with
      | some e => Except.ok e.1
      | none => Except.error ("Extension " ++ ext ++ " is unknown")

end MpyIO

namespace MpyIO

/-! ### Arithmetic-progression lists -/

theorem rlist_length (a st : Int) (n : Nat) : (rlist a st n).length = n := by
  induction n generalizing a with
  | zero => rfl
  | succ n ih => simp [rlist, ih]

theorem rlist_one_append (a : Int) (m n : Nat) :
    rlist a 1 m ++ rlist (a + m) 1 n = rlist a 1 (m + n) := by
  induction m generalizing a with
  | zero => simp [rlist]
  | succ m ih =>
    simp only [rlist, List.cons_append, Nat.succ_add]
    rw [show a + (↑(m + 1) : Int) = (a + 1) + m by push_cast; ring, ih]

theorem rlist_snoc (a : Int) (n : Nat) :
    rlist a 1 (n + 1) = rlist a 1 n ++ [a + n] := by
  rw [← rlist_one_append a n 1]; rfl

theorem mem_rlist_one {p a : Int} {n : Nat} :
    p ∈ rlist a 1 n ↔ a ≤ p ∧ p < a + n := by
  induction n generalizing a with
  | zero => simp [rlist]
  | succ n ih =>
    simp only [rlist, List.mem_cons, ih]
    constructor
    · rintro (rfl | ⟨h1, h2⟩)
      · constructor
        · omega
        · push_cast; omega
      · push_cast at h2 ⊢; omega
    · rintro ⟨h1, h2⟩
      rcases eq_or_lt_of_le h1 with rfl | h1
      · exact Or.inl rfl
      · right
        constructor
        · omega
        · push_cast at h2 ⊢; omega

theorem rlist_one_get? (a : Int) (n k : Nat) (h : k < n) :
    (rlist a 1 n).get? k = some (a + k) := by
  induction n generalizing a k with
  | zero => omega
  | succ n ih =>
    cases k with
    | zero => simp [rlist]
    | succ k =>
      simp only [rlist, List.get?_cons_succ]
      rw [ih (a + 1) k (by omega)]
      congr 1; push_cast; ring

theorem rlist_one_get?_ge (a : Int) (n k : Nat) (h : n ≤ k) :
    (rlist a 1 n).get? k = none := by
  apply List.get?_eq_none.mpr; rw [rlist_length]; exact h

theorem posIn_rlist_one (a : Int) (n k : Nat) (h : k < n) :
    posIn (a + k) (rlist a 1 n) = k := by
  induction n generalizing a k with
  | zero => omega
  | succ n ih =>
    cases k with
    | zero => simp [rlist, posIn]
    | succ k =>
      have hne : ¬(a = a + (k + 1 : Nat)) := by push_cast; omega
      simp only [rlist, posIn, if_neg hne]
      have := ih (a + 1) k (by omega)
      rw [show a + (↑(k + 1) : Int) = (a + 1) + k by push_cast; ring] at *
      rw [this]

theorem rlist_one_pairwise (a : Int) (n : Nat) :
    (rlist a 1 n).Pairwise (· < ·) := by
  induction n generalizing a with
  | zero => exact List.Pairwise.nil
  | succ n ih =>
    refine List.pairwise_cons.mpr ⟨fun p hp => ?_, ih (a + 1)⟩
    exact lt_of_lt_of_le (by omega) (mem_rlist_one.mp hp).1

theorem rlist_desc_eq_reverse (a : Int) (n : Nat) :
    rlist a (-1) n = (rlist (a - n + 1) 1 n).reverse := by
  induction n generalizing a with
  | zero => rfl
  | succ n ih =>
    have h1 : rlist a (-1) (n + 1) = a :: rlist (a + -1) (-1) n := rfl
    rw [h1, ih (a + -1)]
    rw [show a - (↑(n + 1) : Int) + 1 = (a + -1) - n + 1 by push_cast; ring, rlist_snoc]
    simp only [List.reverse_append, List.reverse_cons, List.reverse_nil, List.nil_append,
      List.singleton_append]
    congr 1; ring

theorem mem_rlist_desc {p a : Int} {n : Nat} :
    p ∈ rlist a (-1) n ↔ a - n < p ∧ p ≤ a := by
  rw [rlist_desc_eq_reverse, List.mem_reverse, mem_rlist_one]; omega

theorem rlist_desc_pairwise (a : Int) (n : Nat) :
    (rlist a (-1) n).Pairwise (· > ·) := by
  rw [rlist_desc_eq_reverse]
  exact List.pairwise_reverse.mpr (rlist_one_pairwise _ _)

/-! ### Boundary splits -/

theorem rlist_boundary_flat (b : Nat → Nat) (P : Nat)
    (hm : ∀ r, r < P → b r ≤ b (r + 1)) (hb0 : b 0 = 0) :
    (List.range P).flatMap (fun r => rlist ((b r : Nat) : Int) 1 (b (r + 1) - b r)) =
      rlist 0 1 (b P) := by
  induction P with
  | zero => simp [hb0, rlist]
  | succ P ih =>
    rw [List.range_succ, List.flatMap_append,
      ih (fun r hr => hm r (by omega))]
    simp only [List.flatMap_cons, List.flatMap_nil, List.append_nil]
    have hle : b P ≤ b (P + 1) := hm P (by omega)
    have : ((b P : Nat) : Int) = (0 : Int) + (b P : Nat) := by omega
    rw [this, rlist_one_append]
    congr 1; omega

theorem chunk_boundary_flat {α : Type} (l : List α) (b : Nat → Nat) (P : Nat)
    (hm : ∀ r, r < P → b r ≤ b (r + 1)) (hb0 : b 0 = 0) (hbP : b P = l.length) :
    (List.range P).flatMap (fun r => (l.drop (b r)).take (b (r + 1) - b r)) = l := by
  have key : ∀ Q, Q ≤ P →
      (List.range Q).flatMap (fun r => (l.drop (b r)).take (b (r + 1) - b r)) =
        l.take (b Q) := by
    intro Q
    induction Q with
    | zero => intro _; simp [hb0]
    | succ Q ih =>
      intro hQ
      rw [List.range_succ, List.flatMap_append, ih (by omega)]
      simp only [List.flatMap_cons, List.flatMap_nil, List.append_nil]
      have hle : b Q ≤ b (Q + 1) := hm Q (by omega)
      rw [← List.take_add]
      congr 1; omega
  rw [key P (le_refl P), hbP, List.take_length]

theorem boundary_sizes_sum (b : Nat → Nat) (P : Nat)
    (hm : ∀ r, r < P → b r ≤ b (r + 1)) (hb0 : b 0 = 0) :
    ((List.range P).map (fun r => b (r + 1) - b r)).sum = b P := by
  induction P with
  | zero => simp [hb0]
  | succ P ih =>
    rw [List.range_succ, List.map_append, List.sum_append,
      ih (fun r hr => hm r (by omega))]
    have := hm P (by omega)
    simp; omega

/-! ### The default worker partition -/

theorem default_slice_pos (fs : FileStack) (h : fs.slicesPer = none) (r : Nat) :
    ((fs.slices r).map Slice.pos).flatten =
      rlist ((r * fs.cfilesize / fs.P : Nat) : Int) 1
        ((r + 1) * fs.cfilesize / fs.P - r * fs.cfilesize / fs.P) := by
  have hle : r * fs.cfilesize / fs.P ≤ (r + 1) * fs.cfilesize / fs.P :=
    Nat.div_le_div_right (Nat.mul_le_mul_right _ (by omega))
  simp only [FileStack.slices, h, Slice.mkRange, List.map_cons, List.map_nil,
    List.flatten, List.append_nil]
  congr 1
  simp only [slen, if_pos (by norm_num : (0 : Int) < 1)]
  omega

theorem default_boundary_mono (N P : Nat) :
    ∀ r, r < P → r * N / P ≤ (r + 1) * N / P :=
  fun r _ => Nat.div_le_div_right (Nat.mul_le_mul_right _ (by omega))

theorem default_boundary_top (N P : Nat) (hP : 0 < P) : P * N / P = N :=
  Nat.mul_div_cancel_left N hP

/-! ### Option-mapM helpers -/

theorem mapM_some_of {α β : Type} (l : List α) (f : α → Option β) (g : α → β)
    (h : ∀ x ∈ l, f x = some (g x)) : l.mapM f = some (l.map g) := by
  induction l with
  | nil => rfl
  | cons x l ih =>
    rw [List.mapM_cons, h x (by simp), ih (fun y hy => h y (by simp [hy]))]
    rfl

theorem mapM_eq_forall2 {α β : Type} (l : List α) (f : α → Option β) (ys : List β)
    (h : l.mapM f = some ys) : List.Forall₂ (fun x y => f x = some y) l ys := by
  induction l generalizing ys with
  | nil =>
    rw [List.mapM_nil] at h
    cases h
    exact List.Forall₂.nil
  | cons x l ih =>
    rw [List.mapM_cons] at h
    cases hx : f x with
    | none => rw [hx] at h; cases h
    | some y =>
      rw [hx] at h
      cases hl : l.mapM f with
      | none => rw [hl] at h; cases h
      | some zs =>
        rw [hl] at h
        cases h
        exact List.Forall₂.cons hx (ih zs hl)

theorem mapM_none_of_mem {α β : Type} (l : List α) (f : α → Option β) (x : α)
    (hx : x ∈ l) (h : f x = none) : l.mapM f = none := by
  induction l with
  | nil => cases hx
  | cons y l ih =>
    rw [List.mapM_cons]
    rcases List.mem_cons.mp hx with rfl | hx2
    · rw [h]; rfl
    · cases hy : f y
      · rfl
      · rw [ih hx2]; rfl

end MpyIO

namespace MpyIO

/-! ### Small facts about read on empty selections -/

theorem find_empty_sel (w sl : Slice) (h : sl.pos = []) :
    (w.find sl).1.pos = [] ∧ (w.find sl).2.pos = [] := by
  simp [Slice.find, h]

theorem readSlice_empty_sel (files : List File) (wins : List Slice) (c : String)
    (sl : Slice) (h : sl.pos = []) : readSlice files wins c sl = some [] := by
  unfold readSlice
  have hact : ((wins.map (fun w => w.find sl)).zip files).filter
      (fun (x : (Slice × Slice) × File) => !x.1.1.pos.isEmpty) = [] := by
    apply List.filter_eq_nil_iff.mpr
    intro x hx
    have h1 : x.1 ∈ wins.map (fun w => w.find sl) := (List.of_mem_zip hx).1
    rcases List.mem_map.mp h1 with ⟨w, _, hw⟩
    rw [← hw, (find_empty_sel w sl h).1]
    simp
  rw [hact]
  rfl

/-! ### dict.update and the combined header -/

theorem lookup_map_update (d e : List (String × Int)) (k : String) :
    (d.map (fun kv => (kv.1, ((e.lookup kv.1).getD kv.2)))).lookup k =
      match d.lookup k with
      | some v => some ((e.lookup k).getD v)
      | none => none := by
  induction d with
  | nil => rfl
  | cons kv d ih =>
    obtain ⟨k1, v1⟩ := kv
    by_cases hk : k = k1
    · subst hk
      simp [List.lookup]
    · simp only [List.map_cons, List.lookup]
      rw [show (k == k1) = false from beq_eq_false_iff_ne.mpr hk]
      simpa using ih

theorem lookup_filter_other (e : List (String × Int)) (k : String)
    (p : String × Int → Bool) (hp : ∀ v, p (k, v) = true) :
    (e.filter p).lookup k = e.lookup k := by
  induction e with
  | nil => rfl
  | cons kv e ih =>
    obtain ⟨k1, v1⟩ := kv
    by_cases hk : k = k1
    · subst hk
      rw [List.filter_cons, hp v1]
      simp [List.lookup]
    · rw [List.filter_cons]
      cases hpkv : p (k1, v1)
      · simp only [Bool.false_eq_true, if_false]
        rw [ih, List.lookup]
        rw [show (k == k1) = false from beq_eq_false_iff_ne.mpr hk]
      · simp only [if_true, List.lookup]
        rw [show (k == k1) = false from beq_eq_false_iff_ne.mpr hk]
        exact ih

theorem lookup_dictUpdate (d e : List (String × Int)) (k : String) :
    (dictUpdate d e).lookup k =
      match e.lookup k with
      | some v => some v
      | none => d.lookup k := by
  unfold dictUpdate
  rw [List.lookup_append, lookup_map_update]
  cases hd : d.lookup k with
  | some v =>
    cases he : e.lookup k <;> simp
  | none =>
    simp only [Option.none_orElse]
    rw [lookup_filter_other e k _ (fun v => by simp [hd])]
    cases he : e.lookup k <;> simp

end MpyIO

namespace MpyIO

/-! ### Runs (range coalescing) -/

theorem runs_flatten (l : List Int) : (runs l).flatten = l := by
  induction l with
  | nil => rfl
  | cons a t ih =>
    cases t with
    | nil => rfl
    | cons b rest =>
      rw [show runs (a :: b :: rest) =
        (match runs (b :: rest) with
        | [] => [[a]]
        | r :: rs =>
          match r with
          | [] => [a] :: rs
          | [x] => (a :: [x]) :: rs
          | x :: y :: t2 => if y - x = x - a then (a :: x :: y :: t2) :: rs
              else [a] :: (x :: y :: t2) :: rs) from rfl]
      cases hr : runs (b :: rest) with
      | nil => rw [hr] at ih; cases ih
      | cons r rs =>
        rw [hr] at ih
        cases r with
        | nil =>
          show ([a] :: rs).flatten = a :: b :: rest
          simp only [List.flatten_cons, List.nil_append] at ih ⊢
          rw [ih]
          rfl
        | cons x t2 =>
          cases t2 with
          | nil =>
            show ((a :: [x]) :: rs).flatten = a :: b :: rest
            simp only [List.flatten_cons, List.singleton_append,
              List.cons_append, List.nil_append] at ih ⊢
            rw [ih]
          | cons y t3 =>
            show (if y - x = x - a then (a :: x :: y :: t3) :: rs
              else [a] :: (x :: y :: t3) :: rs).flatten = a :: b :: rest
            by_cases hyx : y - x = x - a
            · rw [if_pos hyx]
              simp only [List.flatten_cons, List.cons_append] at ih ⊢
              rw [ih]
            · rw [if_neg hyx]
              simp only [List.flatten_cons, List.cons_append,
                List.singleton_append, List.nil_append] at ih ⊢
              rw [ih]

theorem runs_sub (l : List Int) : ∀ r ∈ runs l, r.Sublist l := by
  induction l with
  | nil => intro r hr; cases hr
  | cons a t ih =>
    cases t with
    | nil =>
      intro r hr
      rcases List.mem_singleton.mp hr with rfl
      exact List.Sublist.refl _
    | cons b rest =>
      rw [show runs (a :: b :: rest) =
        (match runs (b :: rest) with
        | [] => [[a]]
        | r :: rs =>
          match r with
          | [] => [a] :: rs
          | [x] => (a :: [x]) :: rs
          | x :: y :: t2 => if y - x = x - a then (a :: x :: y :: t2) :: rs
              else [a] :: (x :: y :: t2) :: rs) from rfl]
      cases hr : runs (b :: rest) with
      | nil =>
        intro r hmem
        rcases List.mem_singleton.mp hmem with rfl
        simp
      | cons r rs =>
        have ihr := fun q hq => ih q (hr ▸ hq)
        cases r with
        | nil =>
          show ∀ q ∈ [a] :: rs, q.Sublist (a :: b :: rest)
          intro q hq
          rcases List.mem_cons.mp hq with rfl | hq2
          · simp
          · exact (ihr q (List.mem_cons_of_mem _ hq2)).cons _
        | cons x t2 =>
          cases t2 with
          | nil =>
            show ∀ q ∈ (a :: [x]) :: rs, q.Sublist (a :: b :: rest)
            intro q hq
            rcases List.mem_cons.mp hq with rfl | hq2
            · exact List.Sublist.cons₂ a (ihr [x] (List.mem_cons_self _ _))
            · exact (ihr q (List.mem_cons_of_mem _ hq2)).cons _
          | cons y t3 =>
            show ∀ q ∈ (if y - x = x - a then (a :: x :: y :: t3) :: rs
              else [a] :: (x :: y :: t3) :: rs), q.Sublist (a :: b :: rest)
            by_cases hyx : y - x = x - a
            · rw [if_pos hyx]
              intro q hq
              rcases List.mem_cons.mp hq with rfl | hq2
              · exact List.Sublist.cons₂ a (ihr _ (List.mem_cons_self _ _))
              · exact (ihr q (List.mem_cons_of_mem _ hq2)).cons _
            · rw [if_neg hyx]
              intro q hq
              rcases List.mem_cons.mp hq with rfl | hq2
              · simp
              · exact (ihr q hq2).cons _

theorem runs_pairwise {R : Int → Int → Prop} {l : List Int}
    (h : l.Pairwise R) : ∀ r ∈ runs l, r.Pairwise R :=
  fun r hr => List.Pairwise.sublist (runs_sub l r hr) h

theorem runs_nil_iff (l : List Int) : runs l = [] ↔ l = [] := by
  constructor
  · intro h
    have := runs_flatten l
    rw [h] at this
    exact this.symm
  · rintro rfl; rfl

theorem mem_of_mem_runs {l r : List Int} {p : Int} (hr : r ∈ runs l)
    (hp : p ∈ r) : p ∈ l := (runs_sub l r hr).mem hp

theorem runs_ne_nil (l : List Int) : ∀ r ∈ runs l, r ≠ [] := by
  induction l with
  | nil => intro r hr; cases hr
  | cons a t ih =>
    cases t with
    | nil =>
      intro r hr
      rcases List.mem_singleton.mp hr with rfl
      simp
    | cons b rest =>
      rw [show runs (a :: b :: rest) =
        (match runs (b :: rest) with
        | [] => [[a]]
        | r :: rs =>
          match r with
          | [] => [a] :: rs
          | [x] => (a :: [x]) :: rs
          | x :: y :: t2 => if y - x = x - a then (a :: x :: y :: t2) :: rs
              else [a] :: (x :: y :: t2) :: rs) from rfl]
      cases hr : runs (b :: rest) with
      | nil =>
        intro r hmem
        rcases List.mem_singleton.mp hmem with rfl
        simp
      | cons r rs =>
        have ihr := fun q hq => ih q (hr ▸ hq)
        cases r with
        | nil =>
          show ∀ q ∈ [a] :: rs, q ≠ []
          intro q hq
          rcases List.mem_cons.mp hq with rfl | hq2
          · simp
          · exact ihr q (List.mem_cons_of_mem _ hq2)
        | cons x t2 =>
          cases t2 with
          | nil =>
            show ∀ q ∈ (a :: [x]) :: rs, q ≠ []
            intro q hq
            rcases List.mem_cons.mp hq with rfl | hq2
            · simp
            · exact ihr q (List.mem_cons_of_mem _ hq2)
          | cons y t3 =>
            show ∀ q ∈ (if y - x = x - a then (a :: x :: y :: t3) :: rs
              else [a] :: (x :: y :: t3) :: rs), q ≠ []
            by_cases hyx : y - x = x - a
            · rw [if_pos hyx]
              intro q hq
              rcases List.mem_cons.mp hq with rfl | hq2
              · simp
              · exact ihr q (List.mem_cons_of_mem _ hq2)
            · rw [if_neg hyx]
              intro q hq
              rcases List.mem_cons.mp hq with rfl | hq2
              · simp
              · exact ihr q hq2

/-! ### The per-file read equation -/

theorem lookup_eq_none_of_not_mem {β : Type} (l : List (String × β)) (k : String)
    (h : k ∉ l.map Prod.fst) : l.lookup k = none := by
  induction l with
  | nil => rfl
  | cons kv rest ih =>
    rw [List.lookup]
    rw [show (k == kv.1) = false from beq_eq_false_iff_ne.mpr
      (fun he => h (by rw [he]; exact List.mem_cons_self _ _))]
    exact ih (fun hm => h (List.mem_cons_of_mem _ hm))

theorem readRows_eq (f : File) (c : String) (d : List Int) (p : Slice)
    (hd : f.colData c = some d)
    (hb : ∀ i ∈ p.pos, 0 ≤ i ∧ i < (d.length : Int)) :
    f.readRows c p = some (p.pos.map (fun i => d.getD i.toNat 0)) := by
  unfold File.readRows
  rw [hd]
  show (p.pos.mapM (fun i => if i < 0 then none else d.get? i.toNat)) = _
  apply mapM_some_of
  intro i hi
  obtain ⟨h0, hlt⟩ := hb i hi
  rw [if_neg (by omega)]
  have hn : i.toNat < d.length := by omega
  rw [List.get?_eq_getElem?, List.getElem?_eq_getElem hn,
    List.getD_eq_getElem?_getD, List.getElem?_eq_getElem hn]
  rfl

theorem readRows_none (f : File) (c : String) (p : Slice)
    (hd : f.colData c = none) : f.readRows c p = none := by
  unfold File.readRows
  rw [hd]
  rfl

theorem read_none_of_no_col (f : File) (c : String) (rows : Slice)
    (hd : f.colData c = none) : f.read c rows = none := by
  unfold File.read
  cases hp : f.readPieces rows with
  | nil => rfl
  | cons q qs =>
    rw [mapM_none_of_mem _ _ q (List.mem_cons_self _ _) (readRows_none f c q hd)]
    rfl

theorem clamp_bounds (s : Slice) (n : Nat) :
    ∀ p ∈ (s.clamp n).pos, 0 ≤ p ∧ p < (n : Int) := by
  intro p hp
  have := (List.mem_filter.mp hp).2
  simp only [Bool.and_eq_true, decide_eq_true_eq] at this
  exact this

theorem clamp_isArr (s : Slice) (n : Nat) : (s.clamp n).isArr = s.isArr := rfl

theorem toSlices_flatten_pos (s : Slice) :
    ((s.toSlices.map Slice.pos)).flatten = s.pos := by
  unfold Slice.toSlices
  rw [List.map_map]
  have : (Slice.pos ∘ fun run => (⟨false, stepOf run, run⟩ : Slice)) =
      fun run => run := rfl
  rw [this, List.map_id']
  exact runs_flatten s.pos

/-- The master equation for `BaseFile.read`: for a well-formed column, any
selection, and any declared representation support, `read` returns the
column values at the clamped positions (the conversions preserve both the
positions and their order).  The only failure of a well-formed read is an
index-array selection clamping to nothing (an empty piece list makes
`np.concatenate` raise). -/
theorem file_read_eq (f : File) (c : String) (d : List Int) (rows : Slice)
    (hd : f.colData c = some d) (hlen : d.length = f.csize)
    (hne : rows.isArr = true → (rows.clamp f.csize).pos ≠ []) :
    f.read c rows = some ((rows.clamp f.csize).pos.map (fun i => d.getD i.toNat 0)) := by
  have hb : ∀ i ∈ (rows.clamp f.csize).pos, 0 ≤ i ∧ i < (d.length : Int) := by
    intro i hi
    have := clamp_bounds rows f.csize i hi
    omega
  unfold File.read File.readPieces
  by_cases ha : (rows.clamp f.csize).isArr
  · rw [if_pos ha]
    by_cases hidx : "index" ∈ f.typeRR
    · rw [if_pos hidx]
      rw [mapM_some_of _ _ (fun q => q.pos.map (fun i => d.getD i.toNat 0))
        (fun q hq => by
          rcases List.mem_singleton.mp hq with rfl
          exact readRows_eq f c d _ hd hb)]
      have hnn : ¬((rows.clamp f.csize).pos = []) := hne (by rwa [clamp_isArr] at ha)
      simp only [List.map_cons, List.map_nil, Option.some_bind]
      rw [if_neg (by
        simp only [List.isEmpty_iff]
        intro hcon
        cases hcon)]
      simp
    · rw [if_neg hidx]
      have hruns : ∀ q ∈ (rows.clamp f.csize).toSlices, ∀ i ∈ q.pos,
          0 ≤ i ∧ i < (d.length : Int) := by
        intro q hq i hi
        unfold Slice.toSlices at hq
        rcases List.mem_map.mp hq with ⟨run, hrun, rfl⟩
        exact hb i (mem_of_mem_runs hrun hi)
      rw [mapM_some_of _ _ (fun q => q.pos.map (fun i => d.getD i.toNat 0))
        (fun q hq => readRows_eq f c d q hd (hruns q hq))]
      simp only [Option.some_bind]
      have hnn : (rows.clamp f.csize).pos ≠ [] := hne (by rwa [clamp_isArr] at ha)
      have hts : (rows.clamp f.csize).toSlices ≠ [] := by
        unfold Slice.toSlices
        simp only [ne_eq, List.map_eq_nil_iff]
        rw [runs_nil_iff]
        exact hnn
      rw [if_neg (by
        simp only [List.isEmpty_iff, List.map_eq_nil_iff]
        exact hts)]
      congr 1
      have hgen : ∀ (L : List Slice),
          (L.map (fun q => q.pos.map (fun i => d.getD i.toNat 0))).flatten =
            ((L.map Slice.pos).flatten).map (fun i => d.getD i.toNat 0) := by
        intro L
        induction L with
        | nil => rfl
        | cons x xs ihL => simp only [List.map_cons, List.flatten_cons,
            List.map_append, ihL]
      rw [hgen, toSlices_flatten_pos]
  · rw [if_neg ha]
    by_cases hsl : "slice" ∈ f.typeRR
    · rw [if_pos hsl]
      rw [mapM_some_of _ _ (fun q => q.pos.map (fun i => d.getD i.toNat 0))
        (fun q hq => by
          rcases List.mem_singleton.mp hq with rfl
          exact readRows_eq f c d _ hd hb)]
      simp
    · rw [if_neg hsl]
      rw [mapM_some_of _ _ (fun q => q.pos.map (fun i => d.getD i.toNat 0))
        (fun q hq => by
          rcases List.mem_singleton.mp hq with rfl
          exact readRows_eq f c d _ hd (by exact hb))]
      simp [Slice.toArr]

theorem readPieces_pos_sub (f : File) (rows : Slice) :
    ∀ q ∈ f.readPieces rows, ∀ i ∈ q.pos, i ∈ (rows.clamp f.csize).pos := by
  unfold File.readPieces
  by_cases ha : (rows.clamp f.csize).isArr
  · rw [if_pos ha]
    by_cases hidx : "index" ∈ f.typeRR
    · rw [if_pos hidx]
      intro q hq i hi
      rcases List.mem_singleton.mp hq with rfl
      exact hi
    · rw [if_neg hidx]
      intro q hq i hi
      unfold Slice.toSlices at hq
      rcases List.mem_map.mp hq with ⟨run, hrun, rfl⟩
      exact mem_of_mem_runs hrun hi
  · rw [if_neg ha]
    by_cases hsl : "slice" ∈ f.typeRR
    · rw [if_pos hsl]
      intro q hq i hi
      rcases List.mem_singleton.mp hq with rfl
      exact hi
    · rw [if_neg hsl]
      intro q hq i hi
      rcases List.mem_singleton.mp hq with rfl
      exact hi

theorem readPieces_ne_nil (f : File) (rows : Slice)
    (hne : rows.isArr = true → (rows.clamp f.csize).pos ≠ []) :
    f.readPieces rows ≠ [] := by
  unfold File.readPieces
  by_cases ha : (rows.clamp f.csize).isArr
  · rw [if_pos ha]
    by_cases hidx : "index" ∈ f.typeRR
    · rw [if_pos hidx]; simp
    · rw [if_neg hidx]
      unfold Slice.toSlices
      simp only [ne_eq, List.map_eq_nil_iff]
      rw [runs_nil_iff]
      exact hne (by rwa [clamp_isArr] at ha)
  · rw [if_neg ha]
    by_cases hsl : "slice" ∈ f.typeRR
    · rw [if_pos hsl]; simp
    · rw [if_neg hsl]; simp

theorem zip_get? {α β : Type} (l1 : List α) (l2 : List β) (i : Nat) (a : α) (b : β)
    (h1 : l1.get? i = some a) (h2 : l2.get? i = some b) :
    (l1.zip l2).get? i = some (a, b) := by
  induction l1 generalizing l2 i with
  | nil => cases h1
  | cons x l1 ih =>
    cases l2 with
    | nil => cases h2
    | cons y l2 =>
      cases i with
      | zero =>
        cases h1; cases h2; rfl
      | succ i =>
        simp only [List.zip_cons_cons, List.get?_cons_succ] at *
        exact ih l2 i h1 h2

end MpyIO

namespace MpyIO

/-! ### Sorted filter splits -/

theorem filter_split_desc (l : List Int) (t : Int) (h : l.Pairwise (· > ·)) :
    l.filter (fun p => decide (t ≤ p)) ++ l.filter (fun p => decide (p < t)) = l := by
  induction l with
  | nil => rfl
  | cons a tl ih =>
    have ha : ∀ b ∈ tl, a > b := fun b hb => (List.pairwise_cons.mp h).1 b hb
    have htl := (List.pairwise_cons.mp h).2
    by_cases hat : t ≤ a
    · rw [List.filter_cons_of_pos (by simpa using hat),
        List.filter_cons_of_neg (by simpa using hat)]
      rw [List.cons_append, ih htl]
    · rw [List.filter_cons_of_neg (by simpa using hat),
        List.filter_cons_of_pos (by simp; omega)]
      have h1 : tl.filter (fun p => decide (t ≤ p)) = [] :=
        List.filter_eq_nil_iff.mpr (fun b hb => by
          have := ha b hb
          simp
          omega)
      have h2 : tl.filter (fun p => decide (p < t)) = tl :=
        List.filter_eq_self.mpr (fun b hb => by
          have := ha b hb
          simp
          omega)
      rw [h1] at ih
      have := ih htl
      rw [List.nil_append] at this
      rw [h1, List.nil_append, h2]

theorem filter_split_asc (l : List Int) (t : Int) (h : l.Pairwise (· < ·)) :
    l.filter (fun p => decide (p < t)) ++ l.filter (fun p => decide (t ≤ p)) = l := by
  induction l with
  | nil => rfl
  | cons a tl ih =>
    have ha : ∀ b ∈ tl, a < b := fun b hb => (List.pairwise_cons.mp h).1 b hb
    have htl := (List.pairwise_cons.mp h).2
    by_cases hat : a < t
    · rw [List.filter_cons_of_pos (by simpa using hat),
        List.filter_cons_of_neg (by simp; omega)]
      rw [List.cons_append, ih htl]
    · rw [List.filter_cons_of_neg (by simpa using hat),
        List.filter_cons_of_pos (by simp; omega)]
      have h1 : tl.filter (fun p => decide (p < t)) = [] :=
        List.filter_eq_nil_iff.mpr (fun b hb => by
          have := ha b hb
          simp
          omega)
      have h2 : tl.filter (fun p => decide (t ≤ p)) = tl :=
        List.filter_eq_self.mpr (fun b hb => by
          have := ha b hb
          simp
          omega)
      rw [h1] at ih
      have := ih htl
      rw [List.nil_append] at this
      rw [h1, List.nil_append, h2]

/-! ### The keyed sort -/

theorem orderedInsert_append_of_max {α : Type} (x : Int × α) (l : List (Int × α))
    (h : ∀ b ∈ l, ¬ (x.1 ≤ b.1)) :
    List.orderedInsert (fun a b => a.1 ≤ b.1) x l = l ++ [x] := by
  induction l with
  | nil => rfl
  | cons b tl ih =>
    rw [List.orderedInsert, if_neg (h b (by simp))]
    rw [ih (fun q hq => h q (by simp [hq]))]
    rfl

theorem sortKey_sorted {α : Type} (l : List (Int × α))
    (h : l.Pairwise (fun a b => a.1 ≤ b.1)) : sortKey l = l :=
  List.Sorted.insertionSort_eq h

theorem sortKey_cons_max {α : Type} (x : Int × α) (l : List (Int × α))
    (h : ∀ b ∈ l, b.1 < x.1) : sortKey (x :: l) = sortKey l ++ [x] := by
  unfold sortKey
  rw [List.insertionSort]
  apply orderedInsert_append_of_max
  intro b hb
  have hbl : b ∈ l := (List.perm_insertionSort (fun a b => a.1 ≤ b.1) l).mem_iff.mp hb
  have := h b hbl
  omega

theorem sortKey_cons_min {α : Type} (x : Int × α) (l : List (Int × α))
    (h : ∀ b ∈ l, x.1 ≤ b.1) : sortKey (x :: l) = x :: sortKey l :=
  List.insertionSort_cons _ h

theorem orderedInsert_shift {α : Type} (x : Int × α) (l : List (Int × α)) (n : Int) :
    List.orderedInsert (fun a b => a.1 ≤ b.1) (x.1 + n, x.2)
      (l.map (fun pr => (pr.1 + n, pr.2))) =
    (List.orderedInsert (fun a b => a.1 ≤ b.1) x l).map (fun pr => (pr.1 + n, pr.2)) := by
  induction l with
  | nil => rfl
  | cons b tl ih =>
    simp only [List.map_cons, List.orderedInsert]
    by_cases hb : x.1 ≤ b.1
    · rw [if_pos (by simpa using by omega : (x.1 + n ≤ b.1 + n)), if_pos hb]
      rfl
    · rw [if_neg (by simp; omega), if_neg hb]
      simp only [List.map_cons]
      rw [ih]

theorem sortKey_shift {α : Type} (l : List (Int × α)) (n : Int) :
    sortKey (l.map (fun pr => (pr.1 + n, pr.2))) =
      (sortKey l).map (fun pr => (pr.1 + n, pr.2)) := by
  induction l with
  | nil => rfl
  | cons x tl ih =>
    unfold sortKey at *
    simp only [List.map_cons, List.insertionSort]
    rw [ih]
    exact orderedInsert_shift x (List.insertionSort _ tl) n

/-! ### Characterizing find on an offset window -/

theorem posIn_cast (c0 : Int) (s0 : Nat) (p : Int) (hp : p ∈ rlist c0 1 s0) :
    ((posIn p (rlist c0 1 s0) : Nat) : Int) = p - c0 := by
  obtain ⟨h1, h2⟩ := mem_rlist_one.mp hp
  have hk : p = c0 + ((p - c0).toNat : Nat) := by omega
  rw [hk, posIn_rlist_one c0 s0 (p - c0).toNat (by omega)]
  omega

theorem contains_eq_mem (l : List Int) (p : Int) :
    l.contains p = decide (p ∈ l) := by
  by_cases h : p ∈ l
  · simp [h]
  · simp [h]

theorem map_fst_of_enumFrom_map (B : List Int) (n : Nat) (G : Int → Int) :
    (((List.enumFrom n B).map
      (fun ip => (G ip.2, ((ip.1 : Nat) : Int)))).map Prod.fst) = B.map G := by
  induction B generalizing n with
  | nil => rfl
  | cons b bt ih =>
    simp only [List.enumFrom_cons, List.map_cons]
    rw [ih]

theorem map_snd_of_enumFrom_map (B : List Int) (n : Nat) (G : Int → Int) :
    (((List.enumFrom n B).map
      (fun ip => (G ip.2, ((ip.1 : Nat) : Int)))).map Prod.snd) =
      rlist ((n : Nat) : Int) 1 B.length := by
  induction B generalizing n with
  | nil => rfl
  | cons b bt ih =>
    simp only [List.enumFrom_cons, List.map_cons, List.length_cons]
    rw [ih]
    rw [show rlist ((n : Nat) : Int) 1 (bt.length + 1) =
      ((n : Nat) : Int) :: rlist (((n : Nat) : Int) + 1) 1 bt.length from rfl]
    congr 2

theorem find_seg (w : Slice) (c0 : Int) (s0 : Nat) (hw : w.pos = rlist c0 1 s0)
    (sl : Slice) (A B C : List Int) (hdec : sl.pos = A ++ (B ++ C))
    (hA : ∀ p ∈ A, p ∉ w.pos) (hC : ∀ p ∈ C, p ∉ w.pos)
    (hB : ∀ p ∈ B, p ∈ w.pos) :
    w.find sl = (⟨sl.isArr, 1, B.map (fun p => p - c0)⟩,
      ⟨sl.isArr, 1, rlist ((A.length : Nat) : Int) 1 B.length⟩) := by
  unfold Slice.find
  have henum : sl.pos.enum = A.enum ++ (List.enumFrom A.length B ++
      List.enumFrom (A.length + B.length) C) := by
    rw [hdec, List.enum_append, List.enumFrom_append]
  have hfA : (A.enum.filter (fun ip => w.pos.contains ip.2)) = [] := by
    apply List.filter_eq_nil_iff.mpr
    intro ip hip
    obtain ⟨_, hx⟩ := List.mem_enum hip
    have : ip.2 ∈ A := by rw [hx]; exact List.getElem_mem _
    rw [contains_eq_mem]
    simpa using hA ip.2 this
  have hfC : ((List.enumFrom (A.length + B.length) C).filter
      (fun ip => w.pos.contains ip.2)) = [] := by
    apply List.filter_eq_nil_iff.mpr
    intro ip hip
    obtain ⟨_, _, hx⟩ := List.mem_enumFrom hip
    have : ip.2 ∈ C := by rw [hx]; exact List.getElem_mem _
    rw [contains_eq_mem]
    simpa using hC ip.2 this
  have hfB : ((List.enumFrom A.length B).filter
      (fun ip => w.pos.contains ip.2)) = List.enumFrom A.length B := by
    apply List.filter_eq_self.mpr
    intro ip hip
    obtain ⟨_, _, hx⟩ := List.mem_enumFrom hip
    have : ip.2 ∈ B := by rw [hx]; exact List.getElem_mem _
    rw [contains_eq_mem]
    simpa using hB ip.2 this
  rw [henum, List.filter_append, List.filter_append, hfA, hfB, hfC,
    List.append_nil, List.nil_append]
  show ((⟨sl.isArr, 1, ((List.enumFrom A.length B).map
      (fun ip => (((posIn ip.2 w.pos : Nat) : Int), ((ip.1 : Nat) : Int)))).map
        Prod.fst⟩ : Slice),
    (⟨sl.isArr, 1, ((List.enumFrom A.length B).map
      (fun ip => (((posIn ip.2 w.pos : Nat) : Int), ((ip.1 : Nat) : Int)))).map
        Prod.snd⟩ : Slice)) = _
  rw [map_fst_of_enumFrom_map B A.length (fun p => ((posIn p w.pos : Nat) : Int)),
    map_snd_of_enumFrom_map B A.length (fun p => ((posIn p w.pos : Nat) : Int)), hw]
  have hmc : List.map (fun p => ((posIn p (rlist c0 1 s0) : Nat) : Int)) B =
      List.map (fun p => p - c0) B :=
    List.map_congr_left (fun p hp => posIn_cast c0 s0 p (hw ▸ hB p hp))
  rw [hmc]

theorem find_drop_tail (w sl : Slice) (hi lo : List Int) (hsl : sl.pos = hi ++ lo)
    (hlo : ∀ p ∈ lo, p ∉ w.pos) :
    w.find sl = w.find ⟨sl.isArr, sl.sstep, hi⟩ := by
  unfold Slice.find
  rw [hsl, List.enum_append, List.filter_append]
  have hflo : (List.enumFrom hi.length lo).filter
      (fun ip => w.pos.contains ip.2) = [] := by
    apply List.filter_eq_nil_iff.mpr
    intro ip hip
    obtain ⟨_, _, hx⟩ := List.mem_enumFrom hip
    have : ip.2 ∈ lo := by rw [hx]; exact List.getElem_mem _
    rw [contains_eq_mem]
    simpa using hlo ip.2 this
  rw [hflo, List.append_nil]

theorem enumFrom_filter_map_shift (w : Slice) (hi : List Int) (n m : Nat) :
    ((List.enumFrom (n + m) hi).filter (fun ip => w.pos.contains ip.2)).map
      (fun ip => (((posIn ip.2 w.pos : Nat) : Int), ((ip.1 : Nat) : Int))) =
    (((List.enumFrom m hi).filter (fun ip => w.pos.contains ip.2)).map
      (fun ip => (((posIn ip.2 w.pos : Nat) : Int), ((ip.1 : Nat) : Int)))).map
      (fun pr => (pr.1, pr.2 + ((n : Nat) : Int))) := by
  induction hi generalizing m with
  | nil => rfl
  | cons b bt ih =>
    simp only [List.enumFrom_cons]
    cases hb : w.pos.contains b with
    | false =>
      have hnot : b ∉ w.pos := by
        rw [contains_eq_mem] at hb
        simpa using hb
      rw [List.filter_cons_of_neg (by simpa [contains_eq_mem] using hnot),
        List.filter_cons_of_neg (by simpa [contains_eq_mem] using hnot)]
      rw [show n + m + 1 = n + (m + 1) from by omega]
      exact ih (m + 1)
    | true =>
      have hyes : b ∈ w.pos := by
        rw [contains_eq_mem] at hb
        simpa using hb
      rw [List.filter_cons_of_pos (by simpa [contains_eq_mem] using hyes),
        List.filter_cons_of_pos (by simpa [contains_eq_mem] using hyes)]
      simp only [List.map_cons]
      rw [show ((n + m : Nat) : Int) = ((m : Nat) : Int) + ((n : Nat) : Int) from by
        push_cast; ring]
      rw [show n + m + 1 = n + (m + 1) from by omega, ih (m + 1)]

theorem find_drop_head (w sl : Slice) (lo hi : List Int) (hsl : sl.pos = lo ++ hi)
    (hlo : ∀ p ∈ lo, p ∉ w.pos) :
    (w.find sl).1 = (w.find ⟨sl.isArr, sl.sstep, hi⟩).1 ∧
    (w.find sl).2.pos = ((w.find ⟨sl.isArr, sl.sstep, hi⟩).2.pos).map
      (fun k => k + ((lo.length : Nat) : Int)) ∧
    (w.find sl).2.isArr = sl.isArr := by
  unfold Slice.find
  rw [hsl, List.enum_append, List.filter_append]
  have hflo : (lo.enum.filter (fun ip => w.pos.contains ip.2)) = [] := by
    apply List.filter_eq_nil_iff.mpr
    intro ip hip
    obtain ⟨_, hx⟩ := List.mem_enum hip
    have : ip.2 ∈ lo := by rw [hx]; exact List.getElem_mem _
    rw [contains_eq_mem]
    simpa using hlo ip.2 this
  rw [hflo, List.nil_append]
  have hshift := enumFrom_filter_map_shift w hi lo.length 0
  rw [Nat.add_zero] at hshift
  have henum0 : List.enumFrom 0 hi = hi.enum := rfl
  rw [henum0] at hshift
  rw [hshift]
  refine ⟨?_, ?_, rfl⟩
  · show (⟨sl.isArr, 1, _⟩ : Slice) = (⟨sl.isArr, 1, _⟩ : Slice)
    congr 1
    simp only [List.map_map]
    exact List.map_congr_left (fun ip _ => rfl)
  · simp only [List.map_map]
    exact List.map_congr_left (fun ip _ => rfl)

theorem find_idx_bound (w s : Slice) :
    ∀ k ∈ (w.find s).2.pos, 0 ≤ k ∧ k < ((s.pos.length : Nat) : Int) := by
  intro k hk
  unfold Slice.find at hk
  simp only [List.map_map] at hk
  rcases List.mem_map.mp hk with ⟨ip, hip, rfl⟩
  have hipenum : ip ∈ s.pos.enum := List.mem_filter.mp hip |>.1
  obtain ⟨hlt, _⟩ := List.mem_enum hipenum
  show 0 ≤ ((ip.1 : Nat) : Int) ∧ ((ip.1 : Nat) : Int) < ((s.pos.length : Nat) : Int)
  omega

theorem find_len_eq (w s : Slice) :
    (w.find s).1.pos.length = (w.find s).2.pos.length := by
  unfold Slice.find
  simp

theorem rlist_headD (a : Int) (n : Nat) (h : 0 < n) :
    (rlist a 1 n).headD 0 = a := by
  cases n with
  | zero => omega
  | succ m => rfl

theorem mkRange_pos (a : Int) (n : Nat) :
    (Slice.mkRange a (a + (n : Nat)) 1).pos = rlist a 1 n := by
  unfold Slice.mkRange
  have h1 : slen a (a + (n : Nat)) 1 = n := by
    unfold slen
    rw [if_pos (by norm_num : (0 : Int) < 1)]
    have : a + (n : Int) - a + 1 - 1 = (n : Int) := by ring
    rw [this, Int.ediv_one, Int.toNat_natCast]
  rw [h1]

theorem winsFrom_shape (c : Int) (sizes : List Nat) :
    ∀ w ∈ winsFrom c sizes, ∃ (cw : Int) (sw : Nat),
      w = Slice.mkRange cw (cw + (sw : Nat)) 1 ∧ c ≤ cw := by
  induction sizes generalizing c with
  | nil => intro w hw; cases hw
  | cons s rest ih =>
    intro w hw
    rcases List.mem_cons.mp hw with rfl | hmem
    · exact ⟨c, s, rfl, le_refl c⟩
    · obtain ⟨cw, sw, heq, hle⟩ := ih (c + (s : Nat)) w hmem
      exact ⟨cw, sw, heq, by omega⟩

theorem mem_mkRange (a : Int) (n : Nat) (p : Int) :
    p ∈ (Slice.mkRange a (a + (n : Nat)) 1).pos ↔ a ≤ p ∧ p < a + n := by
  rw [mkRange_pos]
  exact mem_rlist_one

theorem clamp_eq_self (s : Slice) (n : Nat)
    (h : ∀ p ∈ s.pos, 0 ≤ p ∧ p < (n : Int)) : s.clamp n = s := by
  unfold Slice.clamp
  rw [List.filter_eq_self.mpr (fun p hp => by
    obtain ⟨h1, h2⟩ := h p hp
    simp
    omega)]

theorem headD_mem {l : List Int} (h : l ≠ []) : l.headD 0 ∈ l := by
  cases l with
  | nil => exact absurd rfl h
  | cons a t => simp

theorem mapM_map_opt {α β γ : Type} (l : List α) (h : α → β) (f : β → Option γ) :
    (l.map h).mapM f = l.mapM (fun x => f (h x)) := by
  induction l with
  | nil => rfl
  | cons x t ih =>
    rw [List.map_cons, List.mapM_cons, List.mapM_cons, ih]

theorem find_fst_isArr (w s : Slice) : (w.find s).1.isArr = s.isArr := rfl

theorem find_snd_isArr (w s : Slice) : (w.find s).2.isArr = s.isArr := rfl

theorem find_snd_sstep (w s : Slice) : (w.find s).2.sstep = 1 := rfl

theorem find_start_bound (w s : Slice) (h : (w.find s).1.pos ≠ []) :
    0 ≤ (w.find s).2.start ∧ (w.find s).2.start < ((s.pos.length : Nat) : Int) := by
  have hlen := find_len_eq w s
  have hne2 : (w.find s).2.pos ≠ [] := by
    intro hcon
    rw [hcon] at hlen
    simp only [List.length_nil, List.length_eq_zero] at hlen
    exact h hlen
  exact find_idx_bound w s _ (headD_mem hne2)

/-! ### The read of one monotone partition -/

theorem mapM_cons_opt {α β : Type} (f : α → Option β) (x : α) (l : List α)
    (y : β) (ys : List β) (hx : f x = some y) (hl : l.mapM f = some ys) :
    (x :: l).mapM f = some (y :: ys) := by
  rw [List.mapM_cons, hx, hl]
  rfl

theorem mapM_congr_opt {α β : Type} (l : List α) (f g : α → Option β)
    (h : ∀ x ∈ l, f x = g x) : l.mapM f = l.mapM g := by
  induction l with
  | nil => rfl
  | cons x t ih =>
    rw [List.mapM_cons, List.mapM_cons, h x (by simp),
      ih (fun y hy => h y (by simp [hy]))]

theorem headD_map_add (l : List Int) (n : Int) (h : l ≠ []) :
    (l.map (fun k => k + n)).headD 0 = l.headD 0 + n := by
  cases l with
  | nil => exact absurd rfl h
  | cons a t => rfl

theorem zip_map_left_pair {α β γ : Type} (f : α → γ) (l : List α) (m : List β) :
    (l.map f).zip m = (l.zip m).map (fun x => (f x.1, x.2)) := by
  induction l generalizing m with
  | nil => rfl
  | cons a t ih =>
    cases m with
    | nil => rfl
    | cons b s =>
      simp only [List.map_cons, List.zip_cons_cons]
      rw [ih]

theorem act_shift_comm (G : Slice × Slice → Slice × Slice)
    (hG : ∀ pr, (G pr).1 = pr.1) (l : List ((Slice × Slice) × File)) :
    ((l.map (fun x => (G x.1, x.2))).filter
      (fun (x : (Slice × Slice) × File) => !x.1.1.pos.isEmpty)) =
    ((l.filter (fun (x : (Slice × Slice) × File) => !x.1.1.pos.isEmpty)).map
      (fun x => (G x.1, x.2))) := by
  induction l with
  | nil => rfl
  | cons a t ih =>
    simp only [List.map_cons, List.filter_cons]
    rw [show (!(G a.1, a.2).1.1.pos.isEmpty) = (!a.1.1.pos.isEmpty) from by
      show (!(G a.1).1.pos.isEmpty) = _
      rw [hG]]
    cases hpa : (!a.1.1.pos.isEmpty) with
    | false =>
      simp only [Bool.false_eq_true, if_false]
      exact ih
    | true =>
      simp only [if_true, List.map_cons]
      rw [ih]

theorem mapM_read_shift (G : Slice × Slice → Slice × Slice)
    (hG : ∀ pr, (G pr).1 = pr.1) (l : List ((Slice × Slice) × File)) (c : String) :
    ((l.map (fun x => (G x.1, x.2))).mapM
      (fun (x : (Slice × Slice) × File) => x.2.read c x.1.1)) =
    (l.mapM (fun (x : (Slice × Slice) × File) => x.2.read c x.1.1)) := by
  rw [mapM_map_opt]
  apply mapM_congr_opt
  intro x _
  show x.2.read c (G x.1).1 = x.2.read c x.1.1
  rw [hG]

/-- `readSlice` on a strictly descending range-represented partition over
the shard windows starting at offset `o` returns blocks whose
concatenation is the partition's positions mapped through the logical
column — the heart of the reversed (negative-step) read path. -/
theorem readSlice_desc (files : List File) (c : String) :
    ∀ (o : Int) (g : Int → Int) (sl : Slice),
      sl.isArr = false →
      sl.pos.Pairwise (· > ·) →
      (∀ p ∈ sl.pos, o ≤ p ∧ p < o + (((files.map File.csize).sum : Nat) : Int)) →
      FilesVal files c o g →
      ∃ blocks,
        readSlice files (winsFrom o (files.map File.csize)) c sl = some blocks ∧
        blocks.flatten = sl.pos.map g ∧ (blocks = [] → sl.pos = []) := by
  induction files with
  | nil =>
    intro o g sl hArr hmono hbd hval
    have hnil : sl.pos = [] := by
      cases hsl : sl.pos with
      | nil => rfl
      | cons p tl =>
        have := hbd p (by rw [hsl]; exact List.mem_cons_self _ _)
        simp only [List.map_nil, List.sum_nil, Nat.cast_zero, add_zero] at this
        omega
    refine ⟨[], rfl, ?_, fun _ => hnil⟩
    rw [hnil]
    rfl
  | cons f rest ih =>
    intro o g sl hArr hmono hbd hval
    obtain ⟨⟨d, hd, hdlen, hdval⟩, hvalR⟩ := hval
    have hhl := filter_split_desc sl.pos (o + ((f.csize : Nat) : Int)) hmono
    generalize hhi : sl.pos.filter
      (fun p => decide ((o + ((f.csize : Nat) : Int)) ≤ p)) = hi at hhl
    generalize hlo : sl.pos.filter
      (fun p => decide (p < (o + ((f.csize : Nat) : Int)))) = lo at hhl
    have hmemhi : ∀ p ∈ hi, (o + ((f.csize : Nat) : Int)) ≤ p ∧ p ∈ sl.pos := by
      intro p hp
      rw [← hhi] at hp
      obtain ⟨h1, h2⟩ := List.mem_filter.mp hp
      exact ⟨by simpa using h2, h1⟩
    have hmemlo : ∀ p ∈ lo, p < (o + ((f.csize : Nat) : Int)) ∧ p ∈ sl.pos := by
      intro p hp
      rw [← hlo] at hp
      obtain ⟨h1, h2⟩ := List.mem_filter.mp hp
      exact ⟨by simpa using h2, h1⟩
    -- the first window's overlap
    have hfind0 := find_seg (Slice.mkRange o (o + ((f.csize : Nat) : Int)) 1) o f.csize
      (mkRange_pos o f.csize) sl hi lo []
      (by rw [List.append_nil]; exact hhl.symm)
      (fun p hp hmem => by
        rw [mem_mkRange] at hmem
        have := (hmemhi p hp).1
        omega)
      (fun p hp => absurd hp (List.not_mem_nil p))
      (fun p hp => by
        rw [mem_mkRange]
        have h1 := (hmemlo p hp).1
        have h2 := (hbd p (hmemlo p hp).2).1
        omega)
    -- the rest windows ignore lo
    have hfindR : ∀ w ∈ winsFrom (o + ((f.csize : Nat) : Int)) (rest.map File.csize),
        w.find sl = w.find ⟨sl.isArr, sl.sstep, hi⟩ := by
      intro w hw
      obtain ⟨cw, sw, rfl, hcw⟩ := winsFrom_shape _ _ w hw
      apply find_drop_tail _ _ hi lo hhl.symm
      intro p hp hmem
      rw [mem_mkRange] at hmem
      have := (hmemlo p hp).1
      omega
    have hmapR : (winsFrom (o + ((f.csize : Nat) : Int)) (rest.map File.csize)).map
        (fun w => w.find sl) =
        (winsFrom (o + ((f.csize : Nat) : Int)) (rest.map File.csize)).map
        (fun w => w.find ⟨sl.isArr, sl.sstep, hi⟩) :=
      List.map_congr_left hfindR
    -- the induction hypothesis on the suffix
    have hmonoHi : hi.Pairwise (· > ·) := by
      rw [← hhi]
      exact List.Pairwise.sublist (List.filter_sublist _) hmono
    have hbdHi : ∀ p ∈ (⟨sl.isArr, sl.sstep, hi⟩ : Slice).pos,
        (o + ((f.csize : Nat) : Int)) ≤ p ∧
        p < (o + ((f.csize : Nat) : Int)) + (((rest.map File.csize).sum : Nat) : Int) := by
      intro p hp
      have h1 := (hmemhi p hp).1
      have h2 := (hbd p (hmemhi p hp).2).2
      simp only [List.map_cons, List.sum_cons, Nat.cast_add] at h2
      constructor
      · exact h1
      · omega
    obtain ⟨blocksR, hRS, hflatR, hnilR⟩ :=
      ih (o + ((f.csize : Nat) : Int)) g ⟨sl.isArr, sl.sstep, hi⟩ hArr hmonoHi hbdHi hvalR
    -- name the suffix activity list
    have hRS2 : readActs (((( winsFrom (o + ((f.csize : Nat) : Int))
        (rest.map File.csize)).map
          (fun w => w.find (⟨sl.isArr, sl.sstep, hi⟩ : Slice))).zip rest).filter
        (fun (x : (Slice × Slice) × File) => !x.1.1.pos.isEmpty)) c false =
        some blocksR := by
      rw [← hArr]
      exact hRS
    cases hmapMR : ((((winsFrom (o + ((f.csize : Nat) : Int))
        (rest.map File.csize)).map
          (fun w => w.find (⟨sl.isArr, sl.sstep, hi⟩ : Slice))).zip rest).filter
        (fun (x : (Slice × Slice) × File) => !x.1.1.pos.isEmpty)).mapM
        (fun (x : (Slice × Slice) × File) => x.2.read c x.1.1) with
    | none =>
      rw [readActs, hmapMR] at hRS2
      cases hRS2
    | some tmpR =>
      rw [readActs, hmapMR] at hRS2
      -- key bound for the suffix pieces
      have hkeyR : ∀ x ∈ ((((winsFrom (o + ((f.csize : Nat) : Int))
          (rest.map File.csize)).map
            (fun w => w.find (⟨sl.isArr, sl.sstep, hi⟩ : Slice))).zip rest).filter
          (fun (x : (Slice × Slice) × File) => !x.1.1.pos.isEmpty)),
          0 ≤ x.1.2.start ∧ x.1.2.start < ((hi.length : Nat) : Int) := by
        intro x hx
        obtain ⟨hxz, hxp⟩ := List.mem_filter.mp hx
        obtain ⟨hx1, _⟩ := List.of_mem_zip hxz
        rcases List.mem_map.mp hx1 with ⟨w, _, hw⟩
        have hxne : x.1.1.pos ≠ [] := by
          intro hcon
          rw [hcon] at hxp
          simp at hxp
        rw [← hw] at hxne ⊢
        exact find_start_bound w _ hxne
      -- case split on the first window's overlap
      cases hlonil : lo with
      | nil =>
        -- the head shard is skipped; the whole call is the suffix call
        rw [hlonil, List.append_nil] at hhl
        have hslHi : (⟨sl.isArr, sl.sstep, hi⟩ : Slice) = sl := by
          rw [hhl]
        rw [hslHi] at hRS hflatR hnilR
        refine ⟨blocksR, ?_, hflatR, hnilR⟩
        show readSlice (f :: rest) (winsFrom o ((f :: rest).map File.csize)) c sl =
          some blocksR
        unfold readSlice
        have hwins : winsFrom o ((f :: rest).map File.csize) =
            Slice.mkRange o (o + ((f.csize : Nat) : Int)) 1 ::
            winsFrom (o + ((f.csize : Nat) : Int)) (rest.map File.csize) := rfl
        rw [hwins, List.map_cons, List.zip_cons_cons, List.filter_cons_of_neg (by
          rw [hfind0]
          show ¬((!(List.map (fun p => p - o) lo).isEmpty) = true)
          rw [hlonil]
          simp)]
        rw [hmapR, hslHi]
        exact hRS
      | cons p0 lotl =>
        -- the head shard contributes its block, appended after the suffix
        -- blocks by the sort on first correspondence offsets
        have hlone : lo ≠ [] := by rw [hlonil]; simp
        have hrows0bd : ∀ q ∈ lo.map (fun p => p - o), 0 ≤ q ∧ q < ((f.csize : Nat) : Int) := by
          intro q hq
          rcases List.mem_map.mp hq with ⟨p, hp, rfl⟩
          have h1 := (hmemlo p hp).1
          have h2 := (hbd p (hmemlo p hp).2).1
          omega
        have hclamp : (⟨sl.isArr, 1, lo.map (fun p => p - o)⟩ : Slice).clamp f.csize =
            ⟨sl.isArr, 1, lo.map (fun p => p - o)⟩ :=
          clamp_eq_self _ _ hrows0bd
        have hv0 : f.read c ⟨sl.isArr, 1, lo.map (fun p => p - o)⟩ =
            some (lo.map g) := by
          have hre := file_read_eq f c d ⟨sl.isArr, 1, lo.map (fun p => p - o)⟩ hd hdlen
            (fun hcon => by
              rw [show (⟨sl.isArr, 1, lo.map (fun p => p - o)⟩ : Slice).isArr = sl.isArr
                from rfl, hArr] at hcon
              cases hcon)
          rw [hclamp] at hre
          rw [hre]
          congr 1
          show (lo.map (fun p => p - o)).map (fun i => d.getD i.toNat 0) = lo.map g
          rw [List.map_map]
          apply List.map_congr_left
          intro p hp
          show d.getD (p - o).toNat 0 = g p
          have h1 := (hmemlo p hp).1
          have h2 := (hbd p (hmemlo p hp).2).1
          have hk : (p - o).toNat < f.csize := by omega
          rw [hdval (p - o).toNat hk]
          congr 1
          omega
        have hk0 : (⟨sl.isArr, 1, rlist ((hi.length : Nat) : Int) 1 lo.length⟩ : Slice).start =
            ((hi.length : Nat) : Int) := by
          show (rlist ((hi.length : Nat) : Int) 1 lo.length).headD 0 = _
          apply rlist_headD
          rw [hlonil]
          simp
        refine ⟨blocksR ++ [lo.map g], ?_, ?_, fun hb => absurd hb (by simp)⟩
        · unfold readSlice
          have hwins : winsFrom o ((f :: rest).map File.csize) =
              Slice.mkRange o (o + ((f.csize : Nat) : Int)) 1 ::
              winsFrom (o + ((f.csize : Nat) : Int)) (rest.map File.csize) := rfl
          rw [hwins, List.map_cons, List.zip_cons_cons, List.filter_cons_of_pos (by
            rw [hfind0]
            show (!(List.map (fun p => p - o) lo).isEmpty) = true
            rw [hlonil]
            simp)]
          rw [hmapR, hfind0]
          unfold readActs
          have hmapMfull :
              (((((⟨sl.isArr, 1, lo.map (fun p => p - o)⟩ : Slice),
                (⟨sl.isArr, 1, rlist ((hi.length : Nat) : Int) 1 lo.length⟩ : Slice)), f) ::
                ((((winsFrom (o + ((f.csize : Nat) : Int)) (rest.map File.csize)).map
                  (fun w => w.find (⟨sl.isArr, sl.sstep, hi⟩ : Slice))).zip rest).filter
                  (fun (x : (Slice × Slice) × File) => !x.1.1.pos.isEmpty))).mapM
                (fun (x : (Slice × Slice) × File) => x.2.read c x.1.1)) =
              some ((lo.map g) :: tmpR) := by
            exact mapM_cons_opt _ _ _ _ _ hv0 hmapMR
          rw [hmapMfull]
          simp only [Option.some_bind]
          rw [if_neg (by simp)]
          rw [if_neg (by rw [hArr]; simp)]
          congr 1
          rw [List.map_cons, List.zip_cons_cons, hk0]
          rw [sortKey_cons_max _ _ (by
            intro b hb
            obtain ⟨hbk, _⟩ := List.of_mem_zip hb
            rcases List.mem_map.mp hbk with ⟨x, hx, hxk⟩
            rw [← hxk]
            exact (hkeyR x hx).2)]
          rw [List.map_append]
          congr 1
          -- the sorted suffix blocks are exactly the suffix call's blocks
          cases htmpR : tmpR with
          | nil =>
            rw [htmpR] at hRS2
            simp only [Option.some_bind] at hRS2
            rw [if_pos (by simp)] at hRS2
            have hbe : blocksR = [] := (Option.some.inj hRS2).symm
            rw [List.zip_nil_right]
            rw [hbe]
            rfl
          | cons t0 ttl =>
            rw [htmpR] at hRS2
            simp only [Option.some_bind] at hRS2
            rw [if_neg (by simp)] at hRS2
            rw [if_neg (by simp)] at hRS2
            exact Option.some.inj hRS2
        · rw [List.flatten_append]
          show blocksR.flatten ++ ([lo.map g]).flatten = sl.pos.map g
          have hfl : ([lo.map g]).flatten = lo.map g := by simp
          rw [hfl, hflatR]
          show hi.map g ++ lo.map g = sl.pos.map g
          rw [← List.map_append, hhl]

/-- `readSlice` on a strictly ascending range-represented partition over
the shard windows starting at offset `o` returns blocks whose
concatenation is the partition's positions mapped through the logical
column — the forward read path. -/
theorem readSlice_asc (files : List File) (c : String) :
    ∀ (o : Int) (g : Int → Int) (sl : Slice),
      sl.isArr = false →
      sl.pos.Pairwise (· < ·) →
      (∀ p ∈ sl.pos, o ≤ p ∧ p < o + (((files.map File.csize).sum : Nat) : Int)) →
      FilesVal files c o g →
      ∃ blocks,
        readSlice files (winsFrom o (files.map File.csize)) c sl = some blocks ∧
        blocks.flatten = sl.pos.map g ∧ (blocks = [] → sl.pos = []) := by
  induction files with
  | nil =>
    intro o g sl hArr hmono hbd hval
    have hnil : sl.pos = [] := by
      cases hsl : sl.pos with
      | nil => rfl
      | cons p tl =>
        have := hbd p (by rw [hsl]; exact List.mem_cons_self _ _)
        simp only [List.map_nil, List.sum_nil, Nat.cast_zero, add_zero] at this
        omega
    refine ⟨[], rfl, ?_, fun _ => hnil⟩
    rw [hnil]
    rfl
  | cons f rest ih =>
    intro o g sl hArr hmono hbd hval
    obtain ⟨⟨d, hd, hdlen, hdval⟩, hvalR⟩ := hval
    have hhl := filter_split_asc sl.pos (o + ((f.csize : Nat) : Int)) hmono
    generalize hhi : sl.pos.filter
      (fun p => decide ((o + ((f.csize : Nat) : Int)) ≤ p)) = hi at hhl
    generalize hlo : sl.pos.filter
      (fun p => decide (p < (o + ((f.csize : Nat) : Int)))) = lo at hhl
    have hmemhi : ∀ p ∈ hi, (o + ((f.csize : Nat) : Int)) ≤ p ∧ p ∈ sl.pos := by
      intro p hp
      rw [← hhi] at hp
      obtain ⟨h1, h2⟩ := List.mem_filter.mp hp
      exact ⟨by simpa using h2, h1⟩
    have hmemlo : ∀ p ∈ lo, p < (o + ((f.csize : Nat) : Int)) ∧ p ∈ sl.pos := by
      intro p hp
      rw [← hlo] at hp
      obtain ⟨h1, h2⟩ := List.mem_filter.mp hp
      exact ⟨by simpa using h2, h1⟩
    -- the first window's overlap: lo is the prefix of the enumeration
    have hfind0 := find_seg (Slice.mkRange o (o + ((f.csize : Nat) : Int)) 1) o f.csize
      (mkRange_pos o f.csize) sl [] lo hi
      (by rw [List.nil_append]; exact hhl.symm)
      (fun p hp => absurd hp (List.not_mem_nil p))
      (fun p hp hmem => by
        rw [mem_mkRange] at hmem
        have := (hmemhi p hp).1
        omega)
      (fun p hp => by
        rw [mem_mkRange]
        have h1 := (hmemlo p hp).1
        have h2 := (hbd p (hmemlo p hp).2).1
        omega)
    simp only [List.length_nil, Nat.cast_zero] at hfind0
    -- the rest windows ignore lo, with correspondence offsets shifted
    have hlonotinR : ∀ w ∈ winsFrom (o + ((f.csize : Nat) : Int)) (rest.map File.csize),
        ∀ p ∈ lo, p ∉ w.pos := by
      intro w hw p hp
      obtain ⟨cw, sw, rfl, hcw⟩ := winsFrom_shape _ _ w hw
      intro hmem
      rw [mem_mkRange] at hmem
      have := (hmemlo p hp).1
      omega
    have hfindR : ∀ w ∈ winsFrom (o + ((f.csize : Nat) : Int)) (rest.map File.csize),
        w.find sl = ((w.find (⟨sl.isArr, sl.sstep, hi⟩ : Slice)).1,
          (⟨sl.isArr, 1, ((w.find (⟨sl.isArr, sl.sstep, hi⟩ : Slice)).2.pos).map
            (fun k => k + ((lo.length : Nat) : Int))⟩ : Slice)) := by
      intro w hw
      have h3 := find_drop_head w sl lo hi hhl.symm
        (fun p hp => hlonotinR w hw p hp)
      rw [Prod.ext_iff]
      refine ⟨h3.1, ?_⟩
      conv_lhs => rw [show ((w.find sl).2 : Slice) =
        ⟨(w.find sl).2.isArr, (w.find sl).2.sstep, (w.find sl).2.pos⟩ from rfl]
      rw [find_snd_isArr, find_snd_sstep, h3.2.1]
    have hmapR : (winsFrom (o + ((f.csize : Nat) : Int)) (rest.map File.csize)).map
        (fun w => w.find sl) =
        ((winsFrom (o + ((f.csize : Nat) : Int)) (rest.map File.csize)).map
          (fun w => w.find (⟨sl.isArr, sl.sstep, hi⟩ : Slice))).map
          (fun pr => (pr.1, (⟨sl.isArr, 1, pr.2.pos.map
            (fun k => k + ((lo.length : Nat) : Int))⟩ : Slice))) := by
      rw [List.map_map]
      exact List.map_congr_left hfindR
    -- the induction hypothesis on the suffix
    have hmonoHi : hi.Pairwise (· < ·) := by
      rw [← hhi]
      exact List.Pairwise.sublist (List.filter_sublist _) hmono
    have hbdHi : ∀ p ∈ (⟨sl.isArr, sl.sstep, hi⟩ : Slice).pos,
        (o + ((f.csize : Nat) : Int)) ≤ p ∧
        p < (o + ((f.csize : Nat) : Int)) + (((rest.map File.csize).sum : Nat) : Int) := by
      intro p hp
      have h1 := (hmemhi p hp).1
      have h2 := (hbd p (hmemhi p hp).2).2
      simp only [List.map_cons, List.sum_cons, Nat.cast_add] at h2
      constructor
      · exact h1
      · omega
    obtain ⟨blocksR, hRS, hflatR, hnilR⟩ :=
      ih (o + ((f.csize : Nat) : Int)) g ⟨sl.isArr, sl.sstep, hi⟩ hArr hmonoHi hbdHi hvalR
    have hRS2 : readActs (((( winsFrom (o + ((f.csize : Nat) : Int))
        (rest.map File.csize)).map
          (fun w => w.find (⟨sl.isArr, sl.sstep, hi⟩ : Slice))).zip rest).filter
        (fun (x : (Slice × Slice) × File) => !x.1.1.pos.isEmpty)) c false =
        some blocksR := by
      rw [← hArr]
      exact hRS
    cases hmapMR : ((((winsFrom (o + ((f.csize : Nat) : Int))
        (rest.map File.csize)).map
          (fun w => w.find (⟨sl.isArr, sl.sstep, hi⟩ : Slice))).zip rest).filter
        (fun (x : (Slice × Slice) × File) => !x.1.1.pos.isEmpty)).mapM
        (fun (x : (Slice × Slice) × File) => x.2.read c x.1.1) with
    | none =>
      rw [readActs, hmapMR] at hRS2
      cases hRS2
    | some tmpR =>
      rw [readActs, hmapMR] at hRS2
      have hxne : ∀ x ∈ ((((winsFrom (o + ((f.csize : Nat) : Int))
          (rest.map File.csize)).map
            (fun w => w.find (⟨sl.isArr, sl.sstep, hi⟩ : Slice))).zip rest).filter
          (fun (x : (Slice × Slice) × File) => !x.1.1.pos.isEmpty)),
          x.1.2.pos ≠ [] ∧ 0 ≤ x.1.2.start := by
        intro x hx
        obtain ⟨hxz, hxp⟩ := List.mem_filter.mp hx
        obtain ⟨hx1, _⟩ := List.of_mem_zip hxz
        rcases List.mem_map.mp hx1 with ⟨w, _, hw⟩
        have hxne1 : x.1.1.pos ≠ [] := by
          intro hcon
          rw [hcon] at hxp
          simp at hxp
        constructor
        · rw [← hw]
          rw [← hw] at hxne1
          intro hcon
          have hlen := find_len_eq w (⟨sl.isArr, sl.sstep, hi⟩ : Slice)
          rw [hcon] at hlen
          simp only [List.length_nil, List.length_eq_zero] at hlen
          exact hxne1 hlen
        · rw [← hw]
          rw [← hw] at hxne1
          exact (find_start_bound w _ hxne1).1
      -- case split on the first window's overlap
      cases hlonil : lo with
      | nil =>
        rw [hlonil, List.nil_append] at hhl
        have hslHi : (⟨sl.isArr, sl.sstep, hi⟩ : Slice) = sl := by
          rw [hhl]
        rw [hslHi] at hRS hflatR hnilR
        refine ⟨blocksR, ?_, hflatR, hnilR⟩
        show readSlice (f :: rest) (winsFrom o ((f :: rest).map File.csize)) c sl =
          some blocksR
        unfold readSlice
        have hwins : winsFrom o ((f :: rest).map File.csize) =
            Slice.mkRange o (o + ((f.csize : Nat) : Int)) 1 ::
            winsFrom (o + ((f.csize : Nat) : Int)) (rest.map File.csize) := rfl
        rw [hwins, List.map_cons, List.zip_cons_cons, List.filter_cons_of_neg (by
          rw [hfind0]
          show ¬((!(List.map (fun p => p - o) lo).isEmpty) = true)
          rw [hlonil]
          simp)]
        have hmapR2 : (winsFrom (o + ((f.csize : Nat) : Int))
            (rest.map File.csize)).map (fun w => w.find sl) =
            (winsFrom (o + ((f.csize : Nat) : Int)) (rest.map File.csize)).map
            (fun w => w.find (⟨sl.isArr, sl.sstep, hi⟩ : Slice)) := by
          rw [hslHi]
        rw [hmapR2, hslHi]
        exact hRS
      | cons p0 lotl =>
        have hlone : lo ≠ [] := by rw [hlonil]; simp
        have hclamp : (⟨sl.isArr, 1, lo.map (fun p => p - o)⟩ : Slice).clamp f.csize =
            ⟨sl.isArr, 1, lo.map (fun p => p - o)⟩ :=
          clamp_eq_self _ _ (by
            intro q hq
            rcases List.mem_map.mp hq with ⟨p, hp, rfl⟩
            have h1 := (hmemlo p hp).1
            have h2 := (hbd p (hmemlo p hp).2).1
            omega)
        have hv0 : f.read c ⟨sl.isArr, 1, lo.map (fun p => p - o)⟩ =
            some (lo.map g) := by
          have hre := file_read_eq f c d ⟨sl.isArr, 1, lo.map (fun p => p - o)⟩ hd hdlen
            (fun hcon => by
              rw [show (⟨sl.isArr, 1, lo.map (fun p => p - o)⟩ : Slice).isArr = sl.isArr
                from rfl, hArr] at hcon
              cases hcon)
          rw [hclamp] at hre
          rw [hre]
          congr 1
          show (lo.map (fun p => p - o)).map (fun i => d.getD i.toNat 0) = lo.map g
          rw [List.map_map]
          apply List.map_congr_left
          intro p hp
          show d.getD (p - o).toNat 0 = g p
          have h1 := (hmemlo p hp).1
          have h2 := (hbd p (hmemlo p hp).2).1
          have hk : (p - o).toNat < f.csize := by omega
          rw [hdval (p - o).toNat hk]
          congr 1
          omega
        have hk0 : (⟨sl.isArr, 1, rlist 0 1 lo.length⟩ : Slice).start = 0 := by
          show (rlist 0 1 lo.length).headD 0 = 0
          rw [rlist_headD 0 lo.length (by rw [hlonil]; simp)]
        have hG : ∀ pr : Slice × Slice,
            ((fun pr => ((pr.1 : Slice), (⟨sl.isArr, 1, pr.2.pos.map
              (fun k => k + ((lo.length : Nat) : Int))⟩ : Slice))) pr).1 = pr.1 :=
          fun pr => rfl
        refine ⟨(lo.map g) :: blocksR, ?_, ?_, fun hb => by cases hb⟩
        · unfold readSlice
          have hwins : winsFrom o ((f :: rest).map File.csize) =
              Slice.mkRange o (o + ((f.csize : Nat) : Int)) 1 ::
              winsFrom (o + ((f.csize : Nat) : Int)) (rest.map File.csize) := rfl
          rw [hwins, List.map_cons, List.zip_cons_cons, List.filter_cons_of_pos (by
            rw [hfind0]
            show (!(List.map (fun p => p - o) lo).isEmpty) = true
            rw [hlonil]
            simp)]
          rw [hmapR, hfind0]
          rw [zip_map_left_pair]
          rw [act_shift_comm _ hG]
          unfold readActs
          generalize hACT : ((((winsFrom (o + ((f.csize : Nat) : Int))
            (rest.map File.csize)).map
              (fun w => w.find (⟨sl.isArr, sl.sstep, hi⟩ : Slice))).zip rest).filter
              (fun (x : (Slice × Slice) × File) => !x.1.1.pos.isEmpty)) = actHR
            at hmapMR hxne hRS2 ⊢
          have hmapMfull :
              (((((⟨sl.isArr, 1, lo.map (fun p => p - o)⟩ : Slice),
                (⟨sl.isArr, 1, rlist 0 1 lo.length⟩ : Slice)), f) ::
                (actHR.map (fun x => ((fun pr => ((pr.1 : Slice),
                  (⟨sl.isArr, 1, pr.2.pos.map
                    (fun k => k + ((lo.length : Nat) : Int))⟩ : Slice))) x.1,
                  x.2)))).mapM
                (fun (x : (Slice × Slice) × File) => x.2.read c x.1.1)) =
              some ((lo.map g) :: tmpR) := by
            refine mapM_cons_opt _ _ _ _ _ ?_ ?_
            · exact hv0
            · rw [mapM_read_shift _ hG]
              exact hmapMR
          rw [hmapMfull]
          simp only [Option.some_bind]
          rw [if_neg (by simp)]
          rw [if_neg (by rw [hArr]; simp)]
          congr 1
          rw [List.map_cons, List.zip_cons_cons, hk0]
          have hkeys : ((actHR.map (fun x => ((fun pr => ((pr.1 : Slice),
                (⟨sl.isArr, 1, pr.2.pos.map
                  (fun k => k + ((lo.length : Nat) : Int))⟩ : Slice))) x.1,
                x.2))).map
                (fun (x : (Slice × Slice) × File) => x.1.2.start)) =
              (actHR.map
                (fun (x : (Slice × Slice) × File) => x.1.2.start)).map
                (fun k => k + ((lo.length : Nat) : Int)) := by
            rw [List.map_map, List.map_map]
            apply List.map_congr_left
            intro x hx
            exact headD_map_add x.1.2.pos ((lo.length : Nat) : Int) (hxne x hx).1
          rw [hkeys]
          rw [zip_map_left_pair]
          rw [sortKey_cons_min _ _ (by
            intro b hb
            rcases List.mem_map.mp hb with ⟨pr, hpr, rfl⟩
            obtain ⟨hbk, _⟩ := List.of_mem_zip hpr
            rcases List.mem_map.mp hbk with ⟨x, hx, hxk⟩
            show (0 : Int) ≤ pr.1 + ((lo.length : Nat) : Int)
            have h0 : 0 ≤ pr.1 := by
              rw [← hxk]
              exact (hxne x hx).2
            omega)]
          rw [show ((actHR.map
              (fun (x : (Slice × Slice) × File) => x.1.2.start)).zip tmpR).map
              (fun (x : Int × List Int) =>
                ((fun k => k + ((lo.length : Nat) : Int)) x.1, x.2)) =
              ((actHR.map
              (fun (x : (Slice × Slice) × File) => x.1.2.start)).zip tmpR).map
              (fun (pr : Int × List Int) =>
                (pr.1 + ((lo.length : Nat) : Int), pr.2)) from rfl]
          rw [sortKey_shift]
          rw [List.map_cons]
          congr 1
          rw [List.map_map]
          rw [show ((Prod.snd ∘ fun (pr : Int × List Int) =>
            (pr.1 + ((lo.length : Nat) : Int), pr.2)) :
            Int × List Int → List Int) = Prod.snd from rfl]
          cases htmpR : tmpR with
          | nil =>
            rw [htmpR] at hRS2
            simp only [Option.some_bind] at hRS2
            rw [if_pos (by simp)] at hRS2
            have hbe : blocksR = [] := (Option.some.inj hRS2).symm
            rw [List.zip_nil_right]
            rw [hbe]
            rfl
          | cons t0 ttl =>
            rw [htmpR] at hRS2
            simp only [Option.some_bind] at hRS2
            rw [if_neg (by simp)] at hRS2
            rw [if_neg (by simp)] at hRS2
            exact Option.some.inj hRS2
        · show lo.map g ++ blocksR.flatten = sl.pos.map g
          rw [hflatR]
          show lo.map g ++ hi.map g = sl.pos.map g
          rw [← List.map_append, hhl]

/-! ### The shard windows and the logical column -/

theorem scanl_head {α β : Type} (f : β → α → β) (b : β) (l : List α) :
    l.scanl f b = b :: (l.scanl f b).tail := by
  cases l with
  | nil => rfl
  | cons a t => rfl

theorem scanl_zip_winsFrom (sizes : List Nat) :
    ∀ (c : Nat),
    (((sizes.scanl (· + ·) c).zip (sizes.scanl (· + ·) c).tail).map
      (fun ab => Slice.mkRange ((ab.1 : Nat) : Int) ((ab.2 : Nat) : Int) 1)) =
      winsFrom ((c : Nat) : Int) sizes := by
  induction sizes with
  | nil => intro c; rfl
  | cons s rest ih =>
    intro c
    rw [List.scanl_cons, List.singleton_append]
    rw [show (c :: rest.scanl (· + ·) (c + s)).tail = rest.scanl (· + ·) (c + s)
      from rfl]
    rw [scanl_head (· + ·) (c + s) rest, List.zip_cons_cons, List.map_cons]
    rw [← scanl_head]
    rw [ih (c + s)]
    show Slice.mkRange ((c : Nat) : Int) (((c + s : Nat) : Nat) : Int) 1 ::
      winsFrom (((c + s : Nat) : Nat) : Int) rest = winsFrom ((c : Nat) : Int) (s :: rest)
    rw [show winsFrom ((c : Nat) : Int) (s :: rest) =
      Slice.mkRange ((c : Nat) : Int) (((c : Nat) : Int) + ((s : Nat) : Int)) 1 ::
      winsFrom (((c : Nat) : Int) + ((s : Nat) : Int)) rest from rfl]
    rw [show (((c + s : Nat) : Nat) : Int) = ((c : Nat) : Int) + ((s : Nat) : Int) from by
      push_cast; ring]

theorem windows_eq (fs : FileStack) :
    fs.windows = winsFrom 0 (fs.files.map File.csize) := by
  unfold FileStack.windows cumsum
  have := scanl_zip_winsFrom (fs.filesizes) 0
  rw [Nat.cast_zero] at this
  exact this

theorem gcol_length (files : List File) (c : String)
    (hwf : ∀ f ∈ files, ∃ d, f.colData c = some d ∧ d.length = f.csize) :
    (gcol files c).length = (files.map File.csize).sum := by
  induction files with
  | nil => rfl
  | cons f rest ih =>
    obtain ⟨d, hd, hdlen⟩ := hwf f (List.mem_cons_self _ _)
    unfold gcol
    rw [List.map_cons, List.flatten_cons, List.length_append, hd]
    show d.length + (gcol rest c).length = _
    rw [hdlen, ih (fun q hq => hwf q (List.mem_cons_of_mem _ hq))]
    rfl

theorem filesVal_gcol (files : List File) (c : String) :
    ∀ (pre : List Int),
      (∀ f ∈ files, ∃ d, f.colData c = some d ∧ d.length = f.csize) →
      FilesVal files c ((pre.length : Nat) : Int)
        (fun p => (pre ++ gcol files c).getD p.toNat 0) := by
  induction files with
  | nil => intro pre _; trivial
  | cons f rest ih =>
    intro pre hwf
    obtain ⟨d, hd, hdlen⟩ := hwf f (List.mem_cons_self _ _)
    have hgcol : gcol (f :: rest) c = d ++ gcol rest c := by
      unfold gcol
      rw [List.map_cons, List.flatten_cons, hd]
      rfl
    constructor
    · refine ⟨d, hd, hdlen, ?_⟩
      intro k hk
      show d.getD k 0 =
        (pre ++ gcol (f :: rest) c).getD
          ((((pre.length : Nat) : Int) + ((k : Nat) : Int)).toNat) 0
      rw [show ((((pre.length : Nat) : Int) + ((k : Nat) : Int)).toNat) =
        pre.length + k from by omega]
      rw [List.getD_append_right pre _ 0 _ (by omega)]
      rw [show pre.length + k - pre.length = k from by omega]
      rw [hgcol, List.getD_append _ _ 0 k (by omega)]
    · have hrec := ih (pre ++ d) (fun q hq => hwf q (List.mem_cons_of_mem _ hq))
      rw [List.length_append, hdlen] at hrec
      rw [show (pre ++ d) ++ gcol rest c = pre ++ gcol (f :: rest) c from by
        rw [hgcol, List.append_assoc]] at hrec
      rw [Nat.cast_add] at hrec
      exact hrec

/-! ### The range path of cslice -/

theorem filterMap_window (a : Int) (n : Nat) (xs : List Int) :
    (xs.map (fun p => p + -a)).filterMap
      (fun k => if k < 0 then none else (rlist a 1 n).get? k.toNat) =
      xs.filter (fun p => decide (a ≤ p) && decide (p < a + ((n : Nat) : Int))) := by
  induction xs with
  | nil => rfl
  | cons p t ihp =>
    simp only [List.map_cons, List.filter_cons]
    by_cases h1 : p + -a < 0
    · rw [List.filterMap_cons_none (by rw [if_pos h1])]
      rw [show (decide (a ≤ p) && decide (p < a + ((n : Nat) : Int))) = false from by
        simp only [Bool.and_eq_false_iff, decide_eq_false_iff_not]
        left
        omega]
      simp only [Bool.false_eq_true, if_false]
      exact ihp
    · by_cases h2 : (p + -a).toNat < n
      · rw [List.filterMap_cons_some (by
          rw [if_neg h1, rlist_one_get? a n _ h2])]
        rw [show a + (((p + -a).toNat : Nat) : Int) = p from by omega]
        rw [show (decide (a ≤ p) && decide (p < a + ((n : Nat) : Int))) = true from by
          simp only [Bool.and_eq_true, decide_eq_true_eq]
          omega]
        simp only [if_true]
        rw [ihp]
      · rw [List.filterMap_cons_none (by
          rw [if_neg h1, rlist_one_get?_ge a n _ (by omega)])]
        rw [show (decide (a ≤ p) && decide (p < a + ((n : Nat) : Int))) = false from by
          simp only [Bool.and_eq_false_iff, decide_eq_false_iff_not]
          right
          omega]
        simp only [Bool.false_eq_true, if_false]
        exact ihp

theorem sliceComp_window (a : Int) (n : Nat) (ls : Slice) :
    (Slice.mkRange a (a + ((n : Nat) : Int)) 1).sliceComp (ls.shift (-a)) =
      ⟨ls.isArr, ls.sstep, ls.pos.filter
        (fun p => decide (a ≤ p) && decide (p < a + ((n : Nat) : Int)))⟩ := by
  show (⟨(Slice.mkRange a (a + ((n : Nat) : Int)) 1).isArr || ls.isArr, ls.sstep,
    (ls.pos.map (fun p => p + -a)).filterMap
      (fun k => if k < 0 then none
        else (Slice.mkRange a (a + ((n : Nat) : Int)) 1).pos.get? k.toNat)⟩ : Slice) = _
  rw [show (Slice.mkRange a (a + ((n : Nat) : Int)) 1).isArr = false from rfl,
    Bool.false_or, mkRange_pos, filterMap_window]

theorem mkRange_size (a : Int) (n : Nat) :
    (Slice.mkRange a (a + ((n : Nat) : Int)) 1).size = n := by
  unfold Slice.size
  rw [mkRange_pos, rlist_length]

theorem rpGo_desc_flatten (ls : Slice) (hmono : ls.pos.Pairwise (· > ·)) :
    ∀ (sizes : List Nat) (a : Int),
      (((rpGo ls (winsFrom a sizes) a).reverse).map Slice.pos).flatten =
        ls.pos.filter
          (fun p => decide (a ≤ p) && decide (p < a + ((sizes.sum : Nat) : Int))) := by
  intro sizes
  induction sizes with
  | nil =>
    intro a
    have hn : ls.pos.filter
        (fun p => decide (a ≤ p) &&
          decide (p < a + (((List.sum ([] : List Nat)) : Nat) : Int))) = [] := by
      apply List.filter_eq_nil_iff.mpr
      intro p _
      simp only [List.sum_nil, Nat.cast_zero, add_zero, Bool.and_eq_true,
        decide_eq_true_eq, not_and, not_lt]
      intro h1
      exact h1
    rw [hn]
    rfl
  | cons s rest ih =>
    intro a
    rw [show winsFrom a (s :: rest) = Slice.mkRange a (a + ((s : Nat) : Int)) 1 ::
      winsFrom (a + ((s : Nat) : Int)) rest from rfl]
    rw [show rpGo ls (Slice.mkRange a (a + ((s : Nat) : Int)) 1 ::
        winsFrom (a + ((s : Nat) : Int)) rest) a =
      (if ((Slice.mkRange a (a + ((s : Nat) : Int)) 1).sliceComp
            (ls.shift (-a))).pos.isEmpty
        then rpGo ls (winsFrom (a + ((s : Nat) : Int)) rest)
          (a + (((Slice.mkRange a (a + ((s : Nat) : Int)) 1).size : Nat) : Int))
        else ((Slice.mkRange a (a + ((s : Nat) : Int)) 1).sliceComp (ls.shift (-a))) ::
          rpGo ls (winsFrom (a + ((s : Nat) : Int)) rest)
            (a + (((Slice.mkRange a (a + ((s : Nat) : Int)) 1).size : Nat) : Int)))
      from rfl]
    rw [mkRange_size, sliceComp_window]
    have hcomb : ls.pos.filter
        (fun p => decide ((a + ((s : Nat) : Int)) ≤ p) &&
          decide (p < (a + ((s : Nat) : Int)) + ((rest.sum : Nat) : Int))) ++
        ls.pos.filter (fun p => decide (a ≤ p) && decide (p < a + ((s : Nat) : Int))) =
        ls.pos.filter
          (fun p => decide (a ≤ p) &&
            decide (p < a + ((((s :: rest).sum) : Nat) : Int))) := by
      have hsp := filter_split_desc
        (ls.pos.filter (fun p => decide (a ≤ p) &&
          decide (p < a + ((((s :: rest).sum) : Nat) : Int))))
        (a + ((s : Nat) : Int))
        (List.Pairwise.sublist (List.filter_sublist _) hmono)
      rw [List.filter_filter, List.filter_filter] at hsp
      rw [← hsp]
      congr 1
      · apply List.filter_congr
        intro p _
        rw [Bool.eq_iff_iff]
        simp only [Bool.and_eq_true, decide_eq_true_eq, List.sum_cons, Nat.cast_add]
        omega
      · apply List.filter_congr
        intro p _
        rw [Bool.eq_iff_iff]
        simp only [Bool.and_eq_true, decide_eq_true_eq, List.sum_cons, Nat.cast_add]
        omega
    by_cases hemp : (ls.pos.filter
        (fun p => decide (a ≤ p) && decide (p < a + ((s : Nat) : Int)))).isEmpty
    · rw [show ((⟨ls.isArr, ls.sstep, ls.pos.filter
        (fun p => decide (a ≤ p) && decide (p < a + ((s : Nat) : Int)))⟩ : Slice)).pos.isEmpty =
        true from hemp]
      rw [if_pos rfl]
      rw [ih (a + ((s : Nat) : Int))]
      rw [← hcomb]
      rw [show (ls.pos.filter
        (fun p => decide (a ≤ p) && decide (p < a + ((s : Nat) : Int)))) = [] from by
        rwa [← List.isEmpty_iff]]
      rw [List.append_nil]
    · rw [show ((⟨ls.isArr, ls.sstep, ls.pos.filter
        (fun p => decide (a ≤ p) && decide (p < a + ((s : Nat) : Int)))⟩ : Slice)).pos.isEmpty =
        false from by
        show (ls.pos.filter
          (fun p => decide (a ≤ p) && decide (p < a + ((s : Nat) : Int)))).isEmpty = false
        cases hb : (ls.pos.filter
          (fun p => decide (a ≤ p) && decide (p < a + ((s : Nat) : Int)))).isEmpty
        · rfl
        · exact absurd hb hemp]
      rw [if_neg (by simp)]
      rw [List.reverse_cons, List.map_append, List.flatten_append]
      rw [ih (a + ((s : Nat) : Int))]
      rw [← hcomb]
      rw [List.map_cons, List.map_nil, List.flatten_cons, List.flatten_nil,
        List.append_nil]

/-! ### Utilities for the cslice range path -/

theorem getD_range_map {α : Type} (f : Nat → α) (P r : Nat) (d : α) (h : r < P) :
    ((List.range P).map f).getD r d = f r := by
  rw [List.getD_eq_getElem?_getD, List.getElem?_map, List.getElem?_range h]
  rfl

theorem flatten_map_singleton {α β : Type} (l : List α) (f : α → β) :
    (l.map (fun x => [f x])).flatten = l.map f := by
  induction l with
  | nil => rfl
  | cons a t ih => simp only [List.map_cons, List.flatten_cons, List.singleton_append, ih]

theorem flatten_map_nil {α β : Type} (l : List α) :
    (l.map (fun _ => ([] : List β))).flatten = [] := by
  induction l with
  | nil => rfl
  | cons a t ih => simp [ih]

theorem flatten_map_map {α : Type} (l : List α) (A : α → List Int) (g : Int → Int) :
    (l.map (fun x => (A x).map g)).flatten = ((l.map A).flatten).map g := by
  induction l with
  | nil => rfl
  | cons a t ih => simp only [List.map_cons, List.flatten_cons, List.map_append, ih]

theorem map_mkRange_winsFrom :
    ∀ (P : Nat) (b : Nat → Nat), (∀ r, r < P → b r ≤ b (r + 1)) →
      (List.range P).map (fun q =>
        Slice.mkRange ((b q : Nat) : Int) ((b (q + 1) : Nat) : Int) 1) =
      winsFrom ((b 0 : Nat) : Int) ((List.range P).map (fun q => b (q + 1) - b q)) := by
  intro P
  induction P with
  | zero => intro b _; rfl
  | succ P ih =>
    intro b hm
    rw [List.range_succ_eq_map, List.map_cons, List.map_map, List.map_cons, List.map_map]
    have hcast : ((b 0 : Nat) : Int) + ((b 1 - b 0 : Nat) : Int) = ((b 1 : Nat) : Int) := by
      have h01 : b 0 ≤ b 1 := hm 0 (by omega)
      omega
    rw [show winsFrom ((b 0 : Nat) : Int)
        ((b 1 - b 0) :: (List.range P).map ((fun q => b (q + 1) - b q) ∘ Nat.succ)) =
      Slice.mkRange ((b 0 : Nat) : Int) (((b 0 : Nat) : Int) + ((b 1 - b 0 : Nat) : Int)) 1 ::
      winsFrom (((b 0 : Nat) : Int) + ((b 1 - b 0 : Nat) : Int))
        ((List.range P).map ((fun q => b (q + 1) - b q) ∘ Nat.succ)) from rfl]
    rw [hcast]
    congr 1
    exact ih (fun q => b (q + 1)) (fun r hr => hm (r + 1) (by omega))

/-! ### Facts about the default (unsliced) stack -/

theorem default_isSliceArr (fs : FileStack) (hdef : fs.slicesPer = none) :
    fs.isSliceArr = false := by
  unfold FileStack.isSliceArr
  rw [List.any_eq_false]
  intro q _
  simp [FileStack.slices, hdef, Slice.mkRange]

theorem default_lsize (fs : FileStack) (hdef : fs.slicesPer = none) (r : Nat) :
    fs.lsize r = (r + 1) * fs.cfilesize / fs.P - r * fs.cfilesize / fs.P := by
  unfold FileStack.lsize
  simp only [FileStack.slices, hdef, List.map_cons, List.map_nil, List.sum_cons,
    List.sum_nil]
  unfold Slice.size Slice.mkRange
  show (rlist _ 1 _).length + 0 = _
  rw [rlist_length]
  unfold slen
  rw [if_pos (by norm_num : (0 : Int) < 1)]
  rw [show ((((r + 1) * fs.cfilesize / fs.P : Nat) : Int) -
      ((r * fs.cfilesize / fs.P : Nat) : Int) + 1 - 1) =
    (((r + 1) * fs.cfilesize / fs.P : Nat) : Int) -
      ((r * fs.cfilesize / fs.P : Nat) : Int) from by ring]
  rw [Int.ediv_one]
  omega

theorem default_rank_sizes_sum (fs : FileStack) (hP : 0 < fs.P) :
    ((List.range fs.P).map
      (fun q => (q + 1) * fs.cfilesize / fs.P - q * fs.cfilesize / fs.P)).sum =
      fs.cfilesize := by
  have h := boundary_sizes_sum (fun r => r * fs.cfilesize / fs.P) fs.P
    (default_boundary_mono _ _) (by simp)
  simp only at h
  rw [h]
  exact default_boundary_top _ _ hP

theorem default_csize (fs : FileStack) (hdef : fs.slicesPer = none) (hP : 0 < fs.P) :
    fs.csize = fs.cfilesize := by
  unfold FileStack.csize
  rw [List.map_congr_left (fun r _ => default_lsize fs hdef r)]
  exact default_rank_sizes_sum fs hP

theorem default_allS (fs : FileStack) (hdef : fs.slicesPer = none) :
    ((List.range fs.P).map fs.slices).flatten =
      winsFrom 0 ((List.range fs.P).map
        (fun q => (q + 1) * fs.cfilesize / fs.P - q * fs.cfilesize / fs.P)) := by
  have h1 : (List.range fs.P).map fs.slices = (List.range fs.P).map (fun q =>
      [Slice.mkRange ((q * fs.cfilesize / fs.P : Nat) : Int)
        (((q + 1) * fs.cfilesize / fs.P : Nat) : Int) 1]) :=
    List.map_congr_left (fun q _ => by simp only [FileStack.slices, hdef])
  rw [h1, flatten_map_singleton]
  have h2 := map_mkRange_winsFrom fs.P (fun q => q * fs.cfilesize / fs.P)
    (default_boundary_mono _ _)
  simp only at h2
  rw [h2]
  norm_num

theorem default_rank_pos_empty (fs : FileStack) (hdef : fs.slicesPer = none) (r : Nat)
    (heq : (r + 1) * fs.cfilesize / fs.P ≤ r * fs.cfilesize / fs.P) :
    ∀ s ∈ fs.slices r, s.pos = [] := by
  intro s hs
  simp only [FileStack.slices, hdef, List.mem_singleton] at hs
  subst hs
  show rlist _ 1 (slen ((r * fs.cfilesize / fs.P : Nat) : Int)
    (((r + 1) * fs.cfilesize / fs.P : Nat) : Int) 1) = []
  rw [show slen ((r * fs.cfilesize / fs.P : Nat) : Int)
      (((r + 1) * fs.cfilesize / fs.P : Nat) : Int) 1 = 0 from by
    unfold slen
    rw [if_pos (by norm_num : (0 : Int) < 1)]
    rw [show ((((r + 1) * fs.cfilesize / fs.P : Nat) : Int) -
        ((r * fs.cfilesize / fs.P : Nat) : Int) + 1 - 1) =
      (((r + 1) * fs.cfilesize / fs.P : Nat) : Int) -
        ((r * fs.cfilesize / fs.P : Nat) : Int) from by ring]
    rw [Int.ediv_one]
    omega]
  rfl

theorem read_empty_rank (fs : FileStack) (r : Nat) (c : String)
    (hall : ∀ s ∈ fs.slices r, s.pos = []) : fs.read r c = none := by
  unfold FileStack.read
  rw [mapM_some_of (fs.slices r) _ (fun _ => [])
    (fun s hs => readSlice_empty_sel fs.files fs.windows c s (hall s hs))]
  simp [Option.some_bind, flatten_map_nil]

theorem creadAll_some_rank_nonempty (fs : FileStack) (c : String) (l : List Int)
    (hdef : fs.slicesPer = none) (hfwd : fs.creadAll c = some l) :
    ∀ r, r < fs.P → r * fs.cfilesize / fs.P < (r + 1) * fs.cfilesize / fs.P := by
  intro r hr
  by_contra hlt
  push_neg at hlt
  have hempty := default_rank_pos_empty fs hdef r hlt
  have hnone := read_empty_rank fs r c hempty
  have hmap : (List.range fs.P).mapM (fun q => fs.read q c) = none :=
    mapM_none_of_mem _ _ r (List.mem_range.mpr hr) hnone
  unfold FileStack.creadAll at hfwd
  rw [hmap] at hfwd
  simp at hfwd

/-! ### Unfolding cslice -/

theorem make_desc (N : Nat) :
    Slice.make (((N : Nat) : Int) - 1) (-1) (-1) N =
      ⟨false, -1, rlist (((N : Nat) : Int) - 1) (-1) N⟩ := by
  unfold Slice.make
  have hlen : slen (((N : Nat) : Int) - 1) (-1) (-1) = N := by
    unfold slen
    rw [if_neg (by norm_num)]
    rw [show (-(-1 : Int)) = 1 from by norm_num]
    rw [show ((((N : Nat) : Int) - 1) - (-1) + 1 - 1) = ((N : Nat) : Int) from by ring]
    rw [Int.ediv_one, Int.toNat_natCast]
  rw [hlen]
  congr 1
  apply List.filter_eq_self.mpr
  intro p hp
  have := mem_rlist_desc.mp hp
  simp only [Bool.and_eq_true, decide_eq_true_eq]
  omega

theorem split_explicit (A : Bool) (st : Int) (L : List Int) (n : Nat) :
    (⟨A, st, L⟩ : Slice).split n = (List.range n).map (fun i =>
      ⟨A, st, (L.drop (i * L.length / n)).take
        ((i + 1) * L.length / n - i * L.length / n)⟩) := rfl

theorem snap_pos_flatten (pieces : List Slice) :
    ((Slice.snap pieces).map Slice.pos).flatten = (pieces.map Slice.pos).flatten := by
  unfold Slice.snap
  rw [List.map_map]
  rw [show (Slice.pos ∘ fun run => (⟨false, stepOf run, run⟩ : Slice)) =
    (fun run => run) from rfl]
  rw [List.map_id']
  exact runs_flatten _

theorem snap_mem (pieces : List Slice) (s : Slice) (hs : s ∈ Slice.snap pieces) :
    s.isArr = false ∧ s.pos ∈ runs ((pieces.map Slice.pos).flatten) := by
  unfold Slice.snap at hs
  rcases List.mem_map.mp hs with ⟨run, hrun, heq⟩
  rw [← heq]
  exact ⟨rfl, hrun⟩

theorem slices_of_some (fs : FileStack) (s : List (List Slice))
    (h : fs.slicesPer = some s) (r : Nat) : fs.slices r = s.getD r [] := by
  unfold FileStack.slices
  rw [h]

theorem cslice_slicesPer (fs : FileStack) (start stop step : Int) :
    (fs.cslice start stop step).slicesPer = some ((List.range fs.P).map (fun r =>
      if (((Slice.make start stop step fs.csize).split fs.P).getD r
            (Slice.ofArray [])).isArr || fs.isSliceArr then
        [Slice.ofArray ((((Slice.make start stop step fs.csize).split fs.P).getD r
          (Slice.ofArray [])).pos.filterMap
            (fun k => if k < 0 then none else fs.allPos.get? k.toNat))]
      else
        Slice.snap
          (if (((Slice.make start stop step fs.csize).split fs.P).getD r
              (Slice.ofArray [])).sstep < 0 then
            (rpGo (((Slice.make start stop step fs.csize).split fs.P).getD r
                (Slice.ofArray []))
              (((List.range fs.P).map fs.slices).flatten) 0).reverse
          else
            rpGo (((Slice.make start stop step fs.csize).split fs.P).getD r
                (Slice.ofArray []))
              (((List.range fs.P).map fs.slices).flatten) 0))) := rfl

theorem cslice_files (fs : FileStack) (start stop step : Int) :
    (fs.cslice start stop step).files = fs.files := rfl

theorem cslice_P (fs : FileStack) (start stop step : Int) :
    (fs.cslice start stop step).P = fs.P := rfl

/-! ### Per-rank reads through the logical column -/

theorem read_rank_of_slices (files : List File) (c : String) (g : Int → Int)
    (sls : List Slice)
    (hfv : FilesVal files c 0 g)
    (hprops : ∀ s ∈ sls, s.isArr = false ∧
      (s.pos.Pairwise (· > ·) ∨ s.pos.Pairwise (· < ·)) ∧
      ∀ p ∈ s.pos, 0 ≤ p ∧ p < (((files.map File.csize).sum : Nat) : Int)) :
    ∃ parts,
      sls.mapM (readSlice files (winsFrom 0 (files.map File.csize)) c) = some parts ∧
      parts.flatten.flatten = ((sls.map Slice.pos).flatten).map g ∧
      (parts.flatten = [] → (sls.map Slice.pos).flatten = []) := by
  induction sls with
  | nil => exact ⟨[], rfl, rfl, fun _ => rfl⟩
  | cons s rest ih =>
    obtain ⟨hArr, hmono, hbd⟩ := hprops s (List.mem_cons_self _ _)
    have hbd0 : ∀ p ∈ s.pos,
        (0 : Int) ≤ p ∧ p < 0 + (((files.map File.csize).sum : Nat) : Int) := by
      intro p hp
      obtain ⟨h1, h2⟩ := hbd p hp
      exact ⟨h1, by omega⟩
    have hblocks : ∃ blocks,
        readSlice files (winsFrom 0 (files.map File.csize)) c s = some blocks ∧
        blocks.flatten = s.pos.map g ∧ (blocks = [] → s.pos = []) := by
      rcases hmono with hdesc | hasc
      · exact readSlice_desc files c 0 g s hArr hdesc hbd0 hfv
      · exact readSlice_asc files c 0 g s hArr hasc hbd0 hfv
    obtain ⟨blocks, hrd, hflat, hemp⟩ := hblocks
    obtain ⟨parts, hparts, hpflat, hpemp⟩ :=
      ih (fun q hq => hprops q (List.mem_cons_of_mem _ hq))
    refine ⟨blocks :: parts, ?_, ?_, ?_⟩
    · exact mapM_cons_opt _ _ _ _ _ hrd hparts
    · rw [List.flatten_cons, List.flatten_append, hflat, hpflat]
      rw [List.map_cons, List.flatten_cons, List.map_append]
    · intro h
      rw [List.flatten_cons] at h
      obtain ⟨hb, hp⟩ := List.append_eq_nil.mp h
      rw [List.map_cons, List.flatten_cons, hemp hb, hpemp hp]
      rfl

theorem read_rank_eq (fs : FileStack) (r : Nat) (c : String) (g : Int → Int)
    (hfv : FilesVal fs.files c 0 g)
    (hprops : ∀ s ∈ fs.slices r, s.isArr = false ∧
      (s.pos.Pairwise (· > ·) ∨ s.pos.Pairwise (· < ·)) ∧
      ∀ p ∈ s.pos, 0 ≤ p ∧ p < (((fs.files.map File.csize).sum : Nat) : Int))
    (hne : ((fs.slices r).map Slice.pos).flatten ≠ []) :
    fs.read r c = some ((((fs.slices r).map Slice.pos).flatten).map g) := by
  obtain ⟨parts, hparts, hval, hemp⟩ :=
    read_rank_of_slices fs.files c g (fs.slices r) hfv hprops
  unfold FileStack.read
  rw [windows_eq, hparts]
  simp only [Option.some_bind]
  have hpe : parts.flatten ≠ [] := fun h => hne (hemp h)
  rw [if_neg (by simp only [List.isEmpty_iff]; exact hpe)]
  rw [hval]

/-! ### The forward collective read -/

theorem forward_creadAll (fs : FileStack) (c : String)
    (hdef : fs.slicesPer = none) (hP : 0 < fs.P)
    (hwf : ∀ f ∈ fs.files, ∃ d, f.colData c = some d ∧ d.length = f.csize)
    (hne : ∀ r, r < fs.P → r * fs.cfilesize / fs.P < (r + 1) * fs.cfilesize / fs.P) :
    fs.creadAll c = some ((rlist 0 1 fs.cfilesize).map
      (fun p => (gcol fs.files c).getD p.toNat 0)) := by
  have hfv : FilesVal fs.files c 0 (fun p => (gcol fs.files c).getD p.toNat 0) := by
    have h := filesVal_gcol fs.files c [] hwf
    simp only [List.length_nil, Nat.cast_zero, List.nil_append] at h
    exact h
  have hupper : ∀ r, r < fs.P → (r + 1) * fs.cfilesize / fs.P ≤ fs.cfilesize := by
    intro r hr
    calc (r + 1) * fs.cfilesize / fs.P ≤ fs.P * fs.cfilesize / fs.P :=
          Nat.div_le_div_right (Nat.mul_le_mul_right _ (by omega))
      _ = fs.cfilesize := default_boundary_top _ _ hP
  have hsum : (fs.files.map File.csize).sum = fs.cfilesize := rfl
  have hread : ∀ r ∈ List.range fs.P, fs.read r c =
      some ((((fs.slices r).map Slice.pos).flatten).map
        (fun p => (gcol fs.files c).getD p.toNat 0)) := by
    intro r hrm
    have hr := List.mem_range.mp hrm
    have hspos : (Slice.mkRange ((r * fs.cfilesize / fs.P : Nat) : Int)
        (((r + 1) * fs.cfilesize / fs.P : Nat) : Int) 1).pos =
        rlist ((r * fs.cfilesize / fs.P : Nat) : Int) 1
          ((r + 1) * fs.cfilesize / fs.P - r * fs.cfilesize / fs.P) := by
      have h := default_slice_pos fs hdef r
      simp only [FileStack.slices, hdef, List.map_cons, List.map_nil, List.flatten_cons,
        List.flatten_nil, List.append_nil] at h
      exact h
    apply read_rank_eq fs r c _ hfv
    · intro s hs
      simp only [FileStack.slices, hdef, List.mem_singleton] at hs
      subst hs
      refine ⟨rfl, Or.inr ?_, ?_⟩
      · rw [hspos]
        exact rlist_one_pairwise _ _
      · intro p hp
        rw [hspos] at hp
        have hm := mem_rlist_one.mp hp
        have h1 : r * fs.cfilesize / fs.P ≤ (r + 1) * fs.cfilesize / fs.P :=
          default_boundary_mono fs.cfilesize fs.P r hr
        have h2 : (r + 1) * fs.cfilesize / fs.P ≤ fs.cfilesize := hupper r hr
        rw [hsum]
        have hc : ((((r + 1) * fs.cfilesize / fs.P - r * fs.cfilesize / fs.P : Nat)) : Int) =
            (((r + 1) * fs.cfilesize / fs.P : Nat) : Int) -
            ((r * fs.cfilesize / fs.P : Nat) : Int) := by
          omega
        rw [hc] at hm
        have h2c : (((r + 1) * fs.cfilesize / fs.P : Nat) : Int) ≤
            ((fs.cfilesize : Nat) : Int) := by
          exact_mod_cast h2
        have h0 : (0 : Int) ≤ ((r * fs.cfilesize / fs.P : Nat) : Int) :=
          Int.natCast_nonneg _
        omega
    · rw [default_slice_pos fs hdef r]
      intro hcon
      have hlen := congrArg List.length hcon
      rw [rlist_length] at hlen
      have h3 := hne r hr
      simp at hlen
      omega
  unfold FileStack.creadAll
  rw [mapM_some_of (List.range fs.P) _
    (fun r => (((fs.slices r).map Slice.pos).flatten).map
      (fun p => (gcol fs.files c).getD p.toNat 0)) hread]
  rw [Option.map_some']
  rw [flatten_map_map]
  have hcover :
      (((List.range fs.P).map (fun r => ((fs.slices r).map Slice.pos).flatten)).flatten) =
      rlist 0 1 fs.cfilesize := by
    have hrw : (List.range fs.P).map (fun r => ((fs.slices r).map Slice.pos).flatten) =
        (List.range fs.P).map (fun r =>
          rlist ((r * fs.cfilesize / fs.P : Nat) : Int) 1
            ((r + 1) * fs.cfilesize / fs.P - r * fs.cfilesize / fs.P)) :=
      List.map_congr_left (fun r _ => default_slice_pos fs hdef r)
    rw [hrw]
    have hbf := rlist_boundary_flat (fun r => r * fs.cfilesize / fs.P) fs.P
      (default_boundary_mono fs.cfilesize fs.P) (by simp)
    simp only at hbf
    rw [show ((List.range fs.P).map (fun r =>
        rlist ((r * fs.cfilesize / fs.P : Nat) : Int) 1
          ((r + 1) * fs.cfilesize / fs.P - r * fs.cfilesize / fs.P))).flatten =
      (List.range fs.P).flatMap (fun r =>
        rlist ((r * fs.cfilesize / fs.P : Nat) : Int) 1
          ((r + 1) * fs.cfilesize / fs.P - r * fs.cfilesize / fs.P)) from rfl]
    rw [hbf]
    rw [default_boundary_top _ _ hP]
  rw [hcover]

/-! ### The reversed reslice -/

theorem default_cslice_slices (fs : FileStack) (hdef : fs.slicesPer = none)
    (hP : 0 < fs.P) (r : Nat) (hr : r < fs.P) :
    (fs.cslice (((fs.cfilesize : Nat) : Int) - 1) (-1) (-1)).slices r =
      Slice.snap ((rpGo
        (⟨false, -1,
          ((rlist (((fs.cfilesize : Nat) : Int) - 1) (-1) fs.cfilesize).drop
            (r * fs.cfilesize / fs.P)).take
            ((r + 1) * fs.cfilesize / fs.P - r * fs.cfilesize / fs.P)⟩ : Slice)
        (winsFrom 0 ((List.range fs.P).map
          (fun q => (q + 1) * fs.cfilesize / fs.P - q * fs.cfilesize / fs.P))) 0).reverse) := by
  rw [slices_of_some _ _
    (cslice_slicesPer fs (((fs.cfilesize : Nat) : Int) - 1) (-1) (-1)) r]
  rw [getD_range_map _ fs.P r _ hr]
  rw [default_csize fs hdef hP]
  rw [make_desc fs.cfilesize]
  rw [split_explicit]
  rw [rlist_length]
  rw [getD_range_map _ fs.P r _ hr]
  rw [default_isSliceArr fs hdef]
  rw [default_allS fs hdef]
  rfl

theorem default_cslice_props (fs : FileStack) (hdef : fs.slicesPer = none)
    (hP : 0 < fs.P) (r : Nat) (hr : r < fs.P) :
    ((((fs.cslice (((fs.cfilesize : Nat) : Int) - 1) (-1) (-1)).slices r).map
        Slice.pos).flatten =
      ((rlist (((fs.cfilesize : Nat) : Int) - 1) (-1) fs.cfilesize).drop
        (r * fs.cfilesize / fs.P)).take
        ((r + 1) * fs.cfilesize / fs.P - r * fs.cfilesize / fs.P)) ∧
    (∀ s ∈ (fs.cslice (((fs.cfilesize : Nat) : Int) - 1) (-1) (-1)).slices r,
      s.isArr = false ∧ s.pos.Pairwise (· > ·) ∧
      ∀ p ∈ s.pos, 0 ≤ p ∧ p < ((fs.cfilesize : Nat) : Int)) := by
  have hsub : (((rlist (((fs.cfilesize : Nat) : Int) - 1) (-1) fs.cfilesize).drop
      (r * fs.cfilesize / fs.P)).take
      ((r + 1) * fs.cfilesize / fs.P - r * fs.cfilesize / fs.P)).Sublist
      (rlist (((fs.cfilesize : Nat) : Int) - 1) (-1) fs.cfilesize) :=
    (List.take_sublist _ _).trans (List.drop_sublist _ _)
  have hcdesc : (((rlist (((fs.cfilesize : Nat) : Int) - 1) (-1) fs.cfilesize).drop
      (r * fs.cfilesize / fs.P)).take
      ((r + 1) * fs.cfilesize / fs.P - r * fs.cfilesize / fs.P)).Pairwise (· > ·) :=
    List.Pairwise.sublist hsub (rlist_desc_pairwise _ _)
  have hcbd : ∀ p ∈ ((rlist (((fs.cfilesize : Nat) : Int) - 1) (-1) fs.cfilesize).drop
      (r * fs.cfilesize / fs.P)).take
      ((r + 1) * fs.cfilesize / fs.P - r * fs.cfilesize / fs.P),
      0 ≤ p ∧ p < ((fs.cfilesize : Nat) : Int) := by
    intro p hp
    have hmem := hsub.mem hp
    have hm := mem_rlist_desc.mp hmem
    omega
  have hflatcpos : (((rpGo
      (⟨false, -1,
        ((rlist (((fs.cfilesize : Nat) : Int) - 1) (-1) fs.cfilesize).drop
          (r * fs.cfilesize / fs.P)).take
          ((r + 1) * fs.cfilesize / fs.P - r * fs.cfilesize / fs.P)⟩ : Slice)
      (winsFrom 0 ((List.range fs.P).map
        (fun q => (q + 1) * fs.cfilesize / fs.P - q * fs.cfilesize / fs.P))) 0).reverse).map
      Slice.pos).flatten =
      ((rlist (((fs.cfilesize : Nat) : Int) - 1) (-1) fs.cfilesize).drop
        (r * fs.cfilesize / fs.P)).take
        ((r + 1) * fs.cfilesize / fs.P - r * fs.cfilesize / fs.P) := by
    rw [rpGo_desc_flatten _ hcdesc
      ((List.range fs.P).map
        (fun q => (q + 1) * fs.cfilesize / fs.P - q * fs.cfilesize / fs.P)) 0]
    apply List.filter_eq_self.mpr
    intro p hp
    obtain ⟨h1, h2⟩ := hcbd p hp
    have hsum := default_rank_sizes_sum fs hP
    simp only [Bool.and_eq_true, decide_eq_true_eq]
    rw [hsum]
    omega
  have hslc := default_cslice_slices fs hdef hP r hr
  constructor
  · rw [hslc, snap_pos_flatten]
    exact hflatcpos
  · intro s hs
    rw [hslc] at hs
    obtain ⟨hsArr, hsruns⟩ := snap_mem _ s hs
    rw [hflatcpos] at hsruns
    refine ⟨hsArr, List.Pairwise.sublist (runs_sub _ _ hsruns) hcdesc, ?_⟩
    intro p hp
    exact hcbd p (mem_of_mem_runs hsruns hp)

theorem reversed_creadAll (fs : FileStack) (c : String)
    (hdef : fs.slicesPer = none) (hP : 0 < fs.P)
    (hwf : ∀ f ∈ fs.files, ∃ d, f.colData c = some d ∧ d.length = f.csize)
    (hne : ∀ r, r < fs.P → r * fs.cfilesize / fs.P < (r + 1) * fs.cfilesize / fs.P) :
    (fs.cslice (((fs.cfilesize : Nat) : Int) - 1) (-1) (-1)).creadAll c =
      some (((rlist 0 1 fs.cfilesize).map
        (fun p => (gcol fs.files c).getD p.toNat 0)).reverse) := by
  have hfv : FilesVal fs.files c 0 (fun p => (gcol fs.files c).getD p.toNat 0) := by
    have h := filesVal_gcol fs.files c [] hwf
    simp only [List.length_nil, Nat.cast_zero, List.nil_append] at h
    exact h
  have hupper : ∀ r, r < fs.P → (r + 1) * fs.cfilesize / fs.P ≤ fs.cfilesize := by
    intro r hr
    calc (r + 1) * fs.cfilesize / fs.P ≤ fs.P * fs.cfilesize / fs.P :=
          Nat.div_le_div_right (Nat.mul_le_mul_right _ (by omega))
      _ = fs.cfilesize := default_boundary_top _ _ hP
  have hsum : (fs.files.map File.csize).sum = fs.cfilesize := rfl
  have hread : ∀ r ∈ List.range fs.P,
      (fs.cslice (((fs.cfilesize : Nat) : Int) - 1) (-1) (-1)).read r c =
      some (((((rlist (((fs.cfilesize : Nat) : Int) - 1) (-1) fs.cfilesize).drop
          (r * fs.cfilesize / fs.P)).take
          ((r + 1) * fs.cfilesize / fs.P - r * fs.cfilesize / fs.P))).map
        (fun p => (gcol fs.files c).getD p.toNat 0)) := by
    intro r hrm
    have hr := List.mem_range.mp hrm
    obtain ⟨hflat, hprops⟩ := default_cslice_props fs hdef hP r hr
    have hlen : ((((rlist (((fs.cfilesize : Nat) : Int) - 1) (-1) fs.cfilesize).drop
        (r * fs.cfilesize / fs.P)).take
        ((r + 1) * fs.cfilesize / fs.P - r * fs.cfilesize / fs.P))).length =
        (r + 1) * fs.cfilesize / fs.P - r * fs.cfilesize / fs.P := by
      rw [List.length_take, List.length_drop, rlist_length]
      have h2 := hupper r hr
      omega
    rw [← hflat]
    apply read_rank_eq
    · rw [cslice_files]
      exact hfv
    · intro s hs
      obtain ⟨h1, h2, h3⟩ := hprops s hs
      refine ⟨h1, Or.inl h2, ?_⟩
      intro p hp
      rw [cslice_files, hsum]
      exact h3 p hp
    · rw [hflat]
      intro hcon
      have hlc := congrArg List.length hcon
      rw [hlen] at hlc
      have h3 := hne r hr
      simp at hlc
      omega
  unfold FileStack.creadAll
  rw [cslice_P]
  rw [mapM_some_of (List.range fs.P) _
    (fun r => (((rlist (((fs.cfilesize : Nat) : Int) - 1) (-1) fs.cfilesize).drop
        (r * fs.cfilesize / fs.P)).take
        ((r + 1) * fs.cfilesize / fs.P - r * fs.cfilesize / fs.P)).map
      (fun p => (gcol fs.files c).getD p.toNat 0)) hread]
  rw [Option.map_some']
  rw [flatten_map_map]
  have hbP : fs.P * fs.cfilesize / fs.P =
      (rlist (((fs.cfilesize : Nat) : Int) - 1) (-1) fs.cfilesize).length := by
    rw [rlist_length]
    exact default_boundary_top _ _ hP
  have hcb := chunk_boundary_flat
    (rlist (((fs.cfilesize : Nat) : Int) - 1) (-1) fs.cfilesize)
    (fun r => r * fs.cfilesize / fs.P) fs.P
    (default_boundary_mono fs.cfilesize fs.P) (by simp) hbP
  simp only at hcb
  rw [show ((List.range fs.P).map
      (fun r => ((rlist (((fs.cfilesize : Nat) : Int) - 1) (-1) fs.cfilesize).drop
        (r * fs.cfilesize / fs.P)).take
        ((r + 1) * fs.cfilesize / fs.P - r * fs.cfilesize / fs.P))).flatten =
    (List.range fs.P).flatMap
      (fun r => ((rlist (((fs.cfilesize : Nat) : Int) - 1) (-1) fs.cfilesize).drop
        (r * fs.cfilesize / fs.P)).take
        ((r + 1) * fs.cfilesize / fs.P - r * fs.cfilesize / fs.P)) from rfl]
  rw [hcb]
  rw [show rlist (((fs.cfilesize : Nat) : Int) - 1) (-1) fs.cfilesize =
      (rlist 0 1 fs.cfilesize).reverse from by
    rw [rlist_desc_eq_reverse]
    rw [show (((fs.cfilesize : Nat) : Int) - 1 - ((fs.cfilesize : Nat) : Int) + 1) =
      0 from by ring]]
  rw [List.map_reverse]

/-- **C1.** For every worker count `P ≥ 1` and aggregate row count `N`, the
default per-worker partitions `[⌊r·N/P⌋, ⌊(r+1)·N/P⌋)` computed at
construction, taken in worker-rank order, cover `[0, N)` exactly once, with
no gaps and no overlaps: their concatenation is exactly the enumeration of
`[0, N)`. -/
theorem claim1_default_partitions_cover (fs : FileStack)
    (hdef : fs.slicesPer = none) (hP : 0 < fs.P) :
    (List.range fs.P).flatMap (fun r => ((fs.slices r).map Slice.pos).flatten) =
      rlist 0 1 fs.cfilesize := by
  have hrw : ∀ r, ((fs.slices r).map Slice.pos).flatten =
      rlist ((r * fs.cfilesize / fs.P : Nat) : Int) 1
        ((r + 1) * fs.cfilesize / fs.P - r * fs.cfilesize / fs.P) :=
    fun r => default_slice_pos fs hdef r
  calc (List.range fs.P).flatMap (fun r => ((fs.slices r).map Slice.pos).flatten)
      = (List.range fs.P).flatMap (fun r =>
          rlist ((r * fs.cfilesize / fs.P : Nat) : Int) 1
            ((r + 1) * fs.cfilesize / fs.P - r * fs.cfilesize / fs.P)) := by
        simp only [hrw]
    _ = rlist 0 1 (fs.P * fs.cfilesize / fs.P) :=
        rlist_boundary_flat (fun r => r * fs.cfilesize / fs.P) fs.P
          (default_boundary_mono fs.cfilesize fs.P) (by simp)
    _ = rlist 0 1 fs.cfilesize := by rw [default_boundary_top _ _ hP]

/-- Witness for C1 at `P = 3`, `N = 10`. -/
theorem claim1_witness :
    (List.range (3 : Nat)).flatMap
      (fun r => (((⟨[⟨10, [("C", [0, 1, 2, 3, 4, 5, 6, 7, 8, 9])], [], 0, ["slice"]⟩],
        3, none, 0⟩ : FileStack).slices r).map Slice.pos).flatten) =
      rlist 0 1 10 :=
  claim1_default_partitions_cover _ rfl (by decide)

/-! ### Claim C2: reversal correctness of the global reslice -/

/-- **C2.** Reversal correctness (spec P4): on a default-partitioned stack of
aggregate size `N` whose shards all hold column `c` with their declared
lengths, if the collective forward `read(c)` returns the sequence `l`, then
applying the global reslice `cslice(N-1, -1, -1)` and collectively reading
the same column returns exactly `l.reverse` — for every `N` and worker
count, including the empty and singleton cases (vacuously when the forward
read itself raises). -/
theorem claim2_reversal_read (fs : FileStack) (c : String) (l : List Int)
    (hdef : fs.slicesPer = none) (hP : 0 < fs.P)
    (hwf : ∀ f ∈ fs.files, ∃ d, f.colData c = some d ∧ d.length = f.csize)
    (hfwd : fs.creadAll c = some l) :
    (fs.cslice (((fs.cfilesize : Nat) : Int) - 1) (-1) (-1)).creadAll c =
      some l.reverse := by
  have hne := creadAll_some_rank_nonempty fs c l hdef hfwd
  have hf := forward_creadAll fs c hdef hP hwf hne
  rw [hfwd] at hf
  have hl := Option.some.inj hf
  rw [hl]
  exact reversed_creadAll fs c hdef hP hwf hne

/-- Witness for C2: shards `[10,20,30]` and `[40,50]` over two workers; the
forward collective read is `[10,20,30,40,50]` and the reversed reslice reads
its exact reverse. -/
theorem claim2_witness :
    ((⟨[⟨3, [("C", [10, 20, 30])], [], 0, ["slice"]⟩,
        ⟨2, [("C", [40, 50])], [], 0, ["slice"]⟩], 2, none, 0⟩ : FileStack).cslice
      ((((⟨[⟨3, [("C", [10, 20, 30])], [], 0, ["slice"]⟩,
        ⟨2, [("C", [40, 50])], [], 0, ["slice"]⟩], 2, none, 0⟩ : FileStack).cfilesize :
          Nat) : Int) - 1) (-1) (-1)).creadAll "C" =
      some [10, 20, 30, 40, 50].reverse :=
  claim2_reversal_read _ "C" [10, 20, 30, 40, 50] rfl (by decide)
    (by
      intro f hf
      rcases List.mem_cons.mp hf with rfl | hf2
      · exact ⟨[10, 20, 30], rfl, rfl⟩
      · rcases List.mem_cons.mp hf2 with rfl | hf3
        · exact ⟨[40, 50], rfl, rfl⟩
        · cases hf3)
    rfl

/-! ### Claim C3: visible columns are the ordered intersection -/

/-- **C3.** For a non-empty shard list, the visible column list is the first
shard's column list filtered to names present in every other shard: a name
is visible iff it is a column of the first shard and of every other shard,
and the visible list is a sublist of (hence ordered like) the first shard's
columns.  A shard missing a column merely drops it (the accessor is total —
no error). -/
theorem claim3_columns_intersection (fs : FileStack) (f : File) (rest : List File)
    (hf : fs.files = f :: rest) :
    fs.columns = f.columns.filter (fun c => rest.all (fun g => c ∈ g.columns)) ∧
    (∀ c, c ∈ fs.columns ↔ c ∈ f.columns ∧ ∀ g ∈ rest, c ∈ g.columns) ∧
    fs.columns.Sublist f.columns := by
  have h1 : fs.columns = f.columns.filter (fun c => rest.all (fun g => c ∈ g.columns)) := by
    unfold FileStack.columns
    rw [hf]
  refine ⟨h1, fun c => ?_, ?_⟩
  · rw [h1, List.mem_filter]
    constructor
    · rintro ⟨hc, hall⟩
      exact ⟨hc, fun g hg => by simpa using List.all_eq_true.mp hall g hg⟩
    · rintro ⟨hc, hall⟩
      exact ⟨hc, List.all_eq_true.mpr (fun g hg => by simpa using hall g hg)⟩
  · rw [h1]
    exact List.filter_sublist _

/-- Witness for C3: two shards, the second lacking column `"X"`. -/
theorem claim3_witness :
    (⟨[⟨1, [("C", [0]), ("X", [1])], [], 0, ["slice"]⟩,
       ⟨1, [("C", [2])], [], 0, ["slice"]⟩], 1, none, 0⟩ : FileStack).columns
      = ["C"] ∧ ("X" ∉
    (⟨[⟨1, [("C", [0]), ("X", [1])], [], 0, ["slice"]⟩,
       ⟨1, [("C", [2])], [], 0, ["slice"]⟩], 1, none, 0⟩ : FileStack).columns) := by
  have h := claim3_columns_intersection
    (⟨[⟨1, [("C", [0]), ("X", [1])], [], 0, ["slice"]⟩,
       ⟨1, [("C", [2])], [], 0, ["slice"]⟩], 1, none, 0⟩ : FileStack)
    ⟨1, [("C", [0]), ("X", [1])], [], 0, ["slice"]⟩
    [⟨1, [("C", [2])], [], 0, ["slice"]⟩] rfl
  refine ⟨by rw [h.1]; rfl, fun hmem => ?_⟩
  have := (h.2.1 "X").mp hmem
  have hx := this.2 ⟨1, [("C", [2])], [], 0, ["slice"]⟩ (by simp)
  simp [File.columns] at hx

/-! ### Claim C4: write assigns an even shard split of the collective size -/

/-- **C4.** `write` over `n ≥ 1` shards with collective row count `C` (the
sum of the per-worker data lengths) assigns shard `i` exactly
`⌊(i+1)·C/n⌋ - ⌊i·C/n⌋` rows; these counts sum to `C`; and the assignment is
independent of the current worker partitions. -/
theorem claim4_write_shard_split (fs : FileStack) (localSizes : List Nat)
    (hn : 0 < fs.files.length) :
    (∀ i, i < fs.files.length →
      (fs.writeSizes localSizes).getD i 0 =
        (i + 1) * localSizes.sum / fs.files.length -
          i * localSizes.sum / fs.files.length) ∧
    (fs.writeSizes localSizes).sum = localSizes.sum ∧
    (∀ sp, (({ fs with slicesPer := sp } : FileStack).writeSizes localSizes =
      fs.writeSizes localSizes)) := by
  refine ⟨fun i hi => ?_, ?_, fun sp => rfl⟩
  · unfold FileStack.writeSizes
    rw [List.getD_eq_getElem?_getD, List.getElem?_map, List.getElem?_range hi]
    rfl
  · unfold FileStack.writeSizes
    have := boundary_sizes_sum (fun i => i * localSizes.sum / fs.files.length)
      fs.files.length
      (fun r _ => Nat.div_le_div_right (Nat.mul_le_mul_right _ (by omega)))
      (by simp)
    simp only at this ⊢
    rw [show (List.range fs.files.length).map
        (fun i => (i + 1) * localSizes.sum / fs.files.length -
          i * localSizes.sum / fs.files.length) =
        (List.range fs.files.length).map
        (fun i => (fun r => r * localSizes.sum / fs.files.length) (i + 1) -
          (fun r => r * localSizes.sum / fs.files.length) i) from rfl, this]
    exact default_boundary_top _ _ hn

/-- Witness for C4: two shards, collective size 5. -/
theorem claim4_witness :
    ((⟨[⟨0, [], [], 0, ["slice"]⟩, ⟨0, [], [], 0, ["slice"]⟩], 2, none, 0⟩ :
      FileStack).writeSizes [2, 3]).sum = ([2, 3] : List Nat).sum :=
  (claim4_write_shard_split _ [2, 3] (by decide)).2.1

/-! ### Claim C6: communicator mismatch is fatal at construction -/

/-- **C6.** Constructing a `FileStack` from files that are all associated
with the stack's communicator succeeds; any file associated with a
different communicator makes construction raise. -/
theorem claim6_comm_mismatch (files : List File) (P comm : Nat) :
    ((∀ f ∈ files, f.comm = comm) →
      initStack files P comm = Except.ok ⟨files, P, none, comm⟩) ∧
    ((∃ f ∈ files, f.comm ≠ comm) →
      ∃ e, initStack files P comm = Except.error e) := by
  constructor
  · intro h
    unfold initStack
    rw [if_pos]
    exact List.all_eq_true.mpr (fun f hf => by simpa using h f hf)
  · rintro ⟨f, hf, hne⟩
    unfold initStack
    rw [if_neg]
    · exact ⟨_, rfl⟩
    · intro hall
      exact hne (by simpa using List.all_eq_true.mp hall f hf)

/-- Witness for C6: one matching file succeeds, one mismatched file fails. -/
theorem claim6_witness :
    initStack [⟨0, [], [], 5, ["slice"]⟩] 2 5 =
      Except.ok ⟨[⟨0, [], [], 5, ["slice"]⟩], 2, none, 5⟩ ∧
    ∃ e, initStack [⟨0, [], [], 7, ["slice"]⟩] 2 5 = Except.error e :=
  ⟨(claim6_comm_mismatch [⟨0, [], [], 5, ["slice"]⟩] 2 5).1 (by decide),
   (claim6_comm_mismatch [⟨0, [], [], 7, ["slice"]⟩] 2 5).2
     ⟨⟨0, [], [], 7, ["slice"]⟩, by simp, by decide⟩⟩

/-! ### Claim C7: unresolved extension is a fatal registry lookup -/

/-- **C7.** With no explicit format tag, a filename whose extension matches
no registered file type makes `get_filetype` raise rather than return a
handler. -/
theorem claim7_unknown_extension_error (fn : String)
    (h : ∀ e ∈ registry, splitextExt fn ∉ e.2) :
    ∃ msg, get_filetype none (some fn) = Except.error msg := by
  have hfind : registry.find? (fun e => splitextExt fn ∈ e.2) = none :=
    List.find?_eq_none.mpr (fun e he => by simpa using h e he)
  exact ⟨"Extension " ++ splitextExt fn ++ " is unknown",
    by simp only [get_filetype, hfind]⟩

/-- Witness for C7 on `"data/cat.xyz"`. -/
theorem claim7_witness :
    ∃ msg, get_filetype none (some "data/cat.xyz") = Except.error msg :=
  claim7_unknown_extension_error "data/cat.xyz" (by decide)

/-! ### Claim C8: header merge, later shards override -/

/-- **C8.** The logical table's combined header is the shard headers merged
in shard order with later shards overriding colliding keys: looking up any
key yields the value recorded by the last shard that defines it. -/
theorem claim8_header_last_wins (fs : FileStack) (k : String) :
    fs.header.lookup k =
      fs.files.reverse.findSome? (fun f => f.header.lookup k) := by
  suffices h : ∀ (files : List File) (acc : List (String × Int)),
      (files.foldl (fun a f => dictUpdate a f.header) acc).lookup k =
        match files.reverse.findSome? (fun f => f.header.lookup k) with
        | some v => some v
        | none => acc.lookup k by
    have := h fs.files []
    unfold FileStack.header
    rw [this]
    cases fs.files.reverse.findSome? (fun f => f.header.lookup k) <;> simp
  intro files
  induction files with
  | nil => intro acc; simp
  | cons f rest ih =>
    intro acc
    simp only [List.foldl_cons, List.reverse_cons, List.findSome?_append]
    rw [ih (dictUpdate acc f.header), lookup_dictUpdate]
    cases rest.reverse.findSome? (fun g => g.header.lookup k) <;>
      cases hf : f.header.lookup k <;> simp [List.findSome?, hf]

/-! ### Claim C10: read raises on an empty selection -/

/-- **C10.** Whenever the calling worker's current partitions select zero
rows (in particular whenever the aggregate row count is 0 under the default
split), `FileStack.read` raises instead of returning an empty array: the
code indexes the first element of an empty result list. -/
theorem claim10_read_empty_raises (fs : FileStack) (r : Nat) (c : String)
    (h : ∀ sl ∈ fs.slices r, sl.pos = []) :
    fs.read r c = none := by
  unfold FileStack.read
  rw [mapM_some_of (fs.slices r) _ (fun _ => [])
    (fun sl hsl => readSlice_empty_sel fs.files fs.windows c sl (h sl hsl))]
  simp

/-- Witness for C10: a one-worker stack over a single empty shard
(aggregate size 0) raises on read. -/
theorem claim10_witness :
    (⟨[⟨0, [("C", [])], [], 0, ["slice"]⟩], 1, none, 0⟩ : FileStack).read 0 "C"
      = none :=
  claim10_read_empty_raises _ 0 "C" (by decide)

/-! ### Claim C9: row-range representation conversion in BaseFile.read -/

/-- **C9.** For every file and row selection, `BaseFile.read` supplies each
piece to the format-specific reader in a representation the file type
declared support for (an index array is decomposed into slices without
`index` support, a slice is converted to an index array without `slice`
support), and the returned array is the concatenation of the per-piece
reads — equal to the column values at the clamped selection, independent of
the declared support. -/
theorem claim9_read_representation (f : File) (c : String) (d : List Int)
    (rows : Slice)
    (hd : f.colData c = some d) (hlen : d.length = f.csize)
    (hsupp : "slice" ∈ f.typeRR ∨ "index" ∈ f.typeRR)
    (hne : rows.isArr = true → (rows.clamp f.csize).pos ≠ []) :
    (∀ q ∈ f.readPieces rows,
      (if q.isArr then "index" else "slice") ∈ f.typeRR) ∧
    f.read c rows = some (((f.readPieces rows).map
      (fun q => q.pos.map (fun i => d.getD i.toNat 0))).flatten) ∧
    f.read c rows =
      some ((rows.clamp f.csize).pos.map (fun i => d.getD i.toNat 0)) := by
  have hb : ∀ i ∈ (rows.clamp f.csize).pos, 0 ≤ i ∧ i < (d.length : Int) := by
    intro i hi
    have := clamp_bounds rows f.csize i hi
    omega
  have hval := file_read_eq f c d rows hd hlen hne
  refine ⟨?_, ?_, hval⟩
  · unfold File.readPieces
    by_cases ha : (rows.clamp f.csize).isArr
    · rw [if_pos ha]
      by_cases hidx : "index" ∈ f.typeRR
      · rw [if_pos hidx]
        intro q hq
        rcases List.mem_singleton.mp hq with rfl
        rw [if_pos ha]
        exact hidx
      · rw [if_neg hidx]
        intro q hq
        unfold Slice.toSlices at hq
        rcases List.mem_map.mp hq with ⟨run, hrun, rfl⟩
        rcases hsupp with hs | hs
        · exact hs
        · exact absurd hs hidx
    · rw [if_neg ha]
      by_cases hsl : "slice" ∈ f.typeRR
      · rw [if_pos hsl]
        intro q hq
        rcases List.mem_singleton.mp hq with rfl
        rw [if_neg ha]
        exact hsl
      · rw [if_neg hsl]
        intro q hq
        rcases List.mem_singleton.mp hq with rfl
        rcases hsupp with hs | hs
        · exact absurd hs hsl
        · exact hs
  · unfold File.read
    rw [mapM_some_of _ _ (fun q => q.pos.map (fun i => d.getD i.toNat 0))
      (fun q hq => readRows_eq f c d q hd
        (fun i hi => hb i (readPieces_pos_sub f rows q hq i hi)))]
    simp only [Option.some_bind]
    rw [if_neg (by
      simp only [List.isEmpty_iff, List.map_eq_nil_iff]
      exact readPieces_ne_nil f rows hne)]

/-- Witness for C9: a `slice`-only file type with an index-array selection
that decomposes into two range pieces. -/
theorem claim9_witness :
    (⟨4, [("C", [5, 6, 7, 8])], [], 0, ["slice"]⟩ : File).read "C"
      (Slice.ofArray [0, 2, 3]) = some [5, 7, 8] := by
  have h := claim9_read_representation
    (⟨4, [("C", [5, 6, 7, 8])], [], 0, ["slice"]⟩ : File) "C" [5, 6, 7, 8]
    (Slice.ofArray [0, 2, 3]) rfl rfl (Or.inl (by decide)) (fun _ => by decide)
  exact h.2.2.trans (by decide)

/-! ### Claim C5: missing-column behaviour of read -/

/-- Counterexample to **C5** as stated: a two-shard table whose second shard
lacks column `"X"`, and a worker partition overlapping only the first
shard — `read "X"` succeeds and returns that shard's data instead of
failing, because `FileStack.read` performs no collective schema check and
only touches overlapping shards. -/
theorem claim5_counterexample :
    (⟨[⟨2, [("X", [10, 20])], [], 0, ["slice"]⟩,
       ⟨2, [("Y", [1, 2])], [], 0, ["slice"]⟩],
      1, some [[⟨false, 1, [0, 1]⟩]], 0⟩ : FileStack).read 0 "X" =
      some [10, 20] := by decide

/-- **C5 (amended).** `read(X)` fails on every worker whose partition has a
non-empty overlap with a shard lacking `X` (the error surfaces from the
per-format reader on that shard, not from an upfront schema check); a
worker whose partition overlaps only shards containing `X` returns data
(see the counterexample). -/
theorem claim5_overlap_missing_column_fails (fs : FileStack) (r : Nat)
    (c : String) (sl : Slice) (i : Nat) (w : Slice) (f : File)
    (hsl : sl ∈ fs.slices r)
    (hw : fs.windows.get? i = some w)
    (hf : fs.files.get? i = some f)
    (hov : (w.find sl).1.pos ≠ [])
    (hcol : c ∉ f.columns) :
    fs.read r c = none := by
  have hdata : f.colData c = none :=
    lookup_eq_none_of_not_mem f.data c hcol
  have hmemz : ((fs.windows.map (fun v => v.find sl)).zip fs.files).get? i =
      some (w.find sl, f) := by
    apply zip_get?
    · rw [List.get?_eq_getElem?, List.getElem?_map]
      rw [List.get?_eq_getElem?] at hw
      rw [hw]
      rfl
    · exact hf
  have hmem : (w.find sl, f) ∈
      ((fs.windows.map (fun v => v.find sl)).zip fs.files).filter
        (fun (x : (Slice × Slice) × File) => !x.1.1.pos.isEmpty) := by
    apply List.mem_filter.mpr
    refine ⟨List.get?_mem hmemz, ?_⟩
    show (!(w.find sl).1.pos.isEmpty) = true
    cases hpos : (w.find sl).1.pos with
    | nil => exact absurd hpos hov
    | cons a t => rfl
  have hrs : readSlice fs.files fs.windows c sl = none := by
    simp only [readSlice, readActs]
    rw [mapM_none_of_mem _ (fun (x : (Slice × Slice) × File) => x.2.read c x.1.1)
      (w.find sl, f) hmem (read_none_of_no_col f c (w.find sl).1 hdata)]
    rfl
  unfold FileStack.read
  rw [mapM_none_of_mem _ _ sl hsl hrs]
  rfl

/-- Witness for the amended C5: the default single-worker partition covers
both shards, so the worker overlaps the `X`-less shard and read fails. -/
theorem claim5_witness :
    (⟨[⟨2, [("X", [10, 20])], [], 0, ["slice"]⟩,
       ⟨2, [("Y", [1, 2])], [], 0, ["slice"]⟩],
      1, none, 0⟩ : FileStack).read 0 "X" = none := by
  apply claim5_overlap_missing_column_fails
    (⟨[⟨2, [("X", [10, 20])], [], 0, ["slice"]⟩,
       ⟨2, [("Y", [1, 2])], [], 0, ["slice"]⟩],
      1, none, 0⟩ : FileStack) 0 "X"
    (Slice.mkRange 0 4 1) 1 (Slice.mkRange 2 4 1)
    (⟨2, [("Y", [1, 2])], [], 0, ["slice"]⟩ : File)
  · decide
  · decide
  · decide
  · decide
  · decide

end MpyIO
